import Mathlib

/-!
# Verification of the `crashe` brute-force pair-iteration search

Shallow embedding of the two source files of the repository:

* `src/main.rs` — the multi-tier cache cost model (`CacheModel`,
  `cost_model`, `simulate_access`) together with its capacity constants.
* `src/brute_force.rs` — the branch-and-bound path search
  (`search_best_path`, `PartialPath`, the neighbor table, the priority
  frontier).

Modelling conventions, fixed once for the whole file:

* Machine integers (`usize`, `FeedIdx`) are modelled as `Nat`.  All concrete
  inputs considered here are far below any overflow boundary.
  The crate root defining `FeedIdx` is not part of `src/`; `main.rs`
  defines `type FeedIdx = usize` and the spec says "integer identifier in
  `[0, num_feeds)`", so `Nat` is faithful.
* `f32` costs are modelled as `ℚ`.  Every cost the program manipulates is
  one of the literals `0`, `1`, `10/2 = 5`, `60/2 = 30`, or a sum of at
  most `2·path_length` of these, all integers below `2^24`, where `f32`
  arithmetic and comparisons are exact.
* `debug_assert!`/`debug_assert_eq!` are compiled out in release builds and
  the search only runs in release builds (the file proves that the
  neighbor-table debug assertions of `brute_force.rs` fail on every valid
  input, so a debug build aborts during precomputation).  The value-level
  embedding therefore follows release semantics: the asserted conditions do
  not execute — in particular the `simulate_access` calls of
  `PartialPath::new`, which sit inside `debug_assert_eq!`, never run.  The
  assertion conditions themselves are embedded separately as predicates.
* `brute_force.rs` uses a `crate::cache` module (`CacheModel`,
  `CacheEntries`, `start_simulation`) that is not under `src/`.  It is
  modelled from the spec §4.1, whose description coincides with the inline
  `CacheModel` of `main.rs` with the recency list passed explicitly.
* The priority frontier pops a uniformly random element of the
  highest-priority bucket.  The embedding abstracts the frontier as a list
  and lets an arbitrary oracle `ℕ → ℕ` choose which element each `pop`
  removes.  Every behaviour of the bucketed frontier with any RNG is one of
  the oracle behaviours, and all theorems below hold for every oracle.
-/

namespace Crashe

/-- `type FeedIdx = usize` (main.rs) / spec §3: feed index. -/
abbrev FeedIdx := Nat

/-- `pub type FeedPair = [FeedIdx; 2]` (brute_force.rs line 27).  Written
`Nat × Nat` (not `FeedIdx × FeedIdx`) so that destructured components are
literally `Nat`-typed. -/
abbrev FeedPair := Nat × Nat

/-- `pub type Path = Vec<FeedPair>` (brute_force.rs line 30). -/
abbrev Path := List FeedPair

/-- `type Cost = f32` (main.rs line 7), modelled as `ℚ` (see header). -/
abbrev Cost := ℚ

/-- `const L1_CAPACITY: usize = 32 * 1024` (main.rs line 18). -/
def L1_CAPACITY : Nat := 32 * 1024

/-- `const L1_MISS_COST: Cost = 2.0` (main.rs line 19). -/
def L1_MISS_COST : Cost := 2

/-- `const L2_CAPACITY: usize = 512 * 1024` (main.rs line 20). -/
def L2_CAPACITY : Nat := 512 * 1024

/-- `const L2_MISS_COST: Cost = 10.0` (main.rs line 21). -/
def L2_MISS_COST : Cost := 10

/-- `const L3_CAPACITY: usize = 32 * 1024 * 1024` (main.rs line 22). -/
def L3_CAPACITY : Nat := 32 * 1024 * 1024

/-- `const L3_MISS_COST: Cost = 60.0` (main.rs line 23). -/
def L3_MISS_COST : Cost := 60

/-- The `CacheModel` struct of main.rs lines 26-38, with the `entries`
recency list kept outside the struct, as in the `crate::cache` module used
by `brute_force.rs` (spec §4.1: `simulate_access(state, entry)` where the
state is a separate mutable recency history).  The three capacity fields
are exactly those of main.rs.  Recency entries are written `Nat` (same as
`FeedIdx`). -/
structure CacheModel where
  l1_entries : Nat
  l2_entries : Nat
  l3_entries : Nat
deriving Repr, DecidableEq

/-- `CacheEntries`: the recency state, "an ordered list of feed indices,
most-recently-accessed at the tail" (spec §3); `entries: Vec<Entry>` of
main.rs line 28. -/
abbrev CacheEntries := List Nat

namespace CacheModel

/-- `CacheModel::new` (main.rs lines 42-49): tier capacities in entries are
the byte capacities divided by the entry size (integer division). -/
def new (entry_size : Nat) : CacheModel :=
  { l1_entries := L1_CAPACITY / entry_size
    l2_entries := L2_CAPACITY / entry_size
    l3_entries := L3_CAPACITY / entry_size }

/-- `CacheModel::cost_model` (main.rs lines 53-63). -/
def cost_model (m : CacheModel) (age : Nat) : Cost :=
  if age < m.l1_entries then 0
  else if age < m.l2_entries then 1
  else if age < m.l3_entries then L2_MISS_COST / L1_MISS_COST
  else L3_MISS_COST / L1_MISS_COST

/-- `self.entries.iter().rposition(|&item| item == entry)` (main.rs line
67): index of the LAST occurrence of `entry`, or `none`. -/
def rposition (entries : CacheEntries) (entry : FeedIdx) : Option Nat :=
  match entries.reverse.findIdx? (fun item => item = entry) with
  | none => none
  | some i => some (entries.length - 1 - i)

/-- `CacheModel::simulate_access` (main.rs lines 65-90), with the recency
state threaded explicitly: returns the access cost and the updated state.
If the entry is found at position `pos`, its age is
`entries.len() - pos - 1`, it is moved to the tail and the cost is
`cost_model age`; otherwise the entry is appended at the tail for cost 0. -/
def simulate_access (m : CacheModel) (entries : CacheEntries) (entry : FeedIdx) :
    Cost × CacheEntries :=
  match rposition entries entry with
  | some pos =>
      (m.cost_model (entries.length - pos - 1), entries.eraseIdx pos ++ [entry])
  | none => (0, entries ++ [entry])

/-- `start_simulation` of the `crate::cache` module.  Modelled from the
spec: §4.2 says a fresh path simulates accesses "against an empty cache
state"; main.rs initialises `entries: Vec::new()`. -/
def start_simulation : CacheEntries := []

end CacheModel

/-! ## Access sequences

Helper functions describing the cost of simulating a sequence of feed
pairs; `simulate_pair` matches the per-pair loop
`next_step.iter().map(|&feed| cache_model.simulate_access(..)).sum()` of
`PartialPath::evaluate_next_step`: the pair's first (smaller) feed is
accessed first, then the second. -/

/-- Simulate both accesses of one pair: cost of the pair and new state. -/
def simulate_pair (m : CacheModel) (entries : CacheEntries) (p : FeedPair) :
    Cost × CacheEntries :=
  let r1 := m.simulate_access entries p.1
  let r2 := m.simulate_access r1.2 p.2
  (r1.1 + r2.1, r2.2)

/-- Simulate a list of pairs in order, accumulating the total cost. -/
def simulate_pairs (m : CacheModel) (entries : CacheEntries) :
    List FeedPair → Cost × CacheEntries
  | [] => (0, entries)
  | p :: ps =>
      let r := simulate_pair m entries p
      let rest := simulate_pairs m r.2 ps
      (r.1 + rest.1, rest.2)

/-- Fold a whole sequence of accesses through the recency state (used to
state the reachable-state invariants of the cache model). -/
def simulate_seq (m : CacheModel) (entries : CacheEntries) : List FeedIdx → CacheEntries
  | [] => entries
  | e :: es => simulate_seq m (m.simulate_access entries e).2 es

/-- Total simulated cache cost of a complete access sequence started on an
empty cache: this is the cost the harness (`test_feed_pair_locality`)
charges an iteration order, and the natural "cost of a traversal". -/
def pathCost (m : CacheModel) (path : Path) : Cost :=
  (simulate_pairs m CacheModel.start_simulation path).1

/-- The recency state after simulating all pairs of `path` but the first
(release builds never simulate the first pair: the `simulate_access` calls
of `PartialPath::new` sit inside `debug_assert_eq!`). -/
def tailState (m : CacheModel) (path : Path) : CacheEntries :=
  (simulate_pairs m CacheModel.start_simulation path.tail).2

/-- The cost the search accumulates for a path: the simulated cost of all
pairs but the first (see `tailState`). -/
def tailCost (m : CacheModel) (path : Path) : Cost :=
  (simulate_pairs m CacheModel.start_simulation path.tail).1

/-! ## Partial paths (brute_force.rs lines 318-429) -/

/-- The `PartialPath` search node (brute_force.rs lines 318-330). -/
structure PartialPath where
  path : Path
  cache_entries : CacheEntries
  cost_so_far : Cost
deriving Repr

namespace PartialPath

/-- `PartialPath::new` (brute_force.rs lines 336-347), release semantics:
`path = vec![start]`, `cache_entries = start_simulation()`, `cost_so_far =
0`.  The two `simulate_access` calls of the source sit inside
`debug_assert_eq!` and are compiled out of release builds, so the start
pair is never fed to the recency state (see `c5_new_skips_simulation`). -/
def new (_m : CacheModel) (start : FeedPair) : PartialPath :=
  { path := [start]
    cache_entries := CacheModel.start_simulation
    cost_so_far := 0 }

/-- `PartialPath::len` (brute_force.rs lines 350-352). -/
def len (p : PartialPath) : Nat := p.path.length

/-- `PartialPath::last_step` (brute_force.rs lines 355-357).  `.unwrap()`
on the last element: every node the search builds has a nonempty path, the
default is never read. -/
def last_step (p : PartialPath) : FeedPair := p.path.getLastD (0, 0)

/-- `PartialPath::contains` (brute_force.rs lines 368-373). -/
def contains (p : PartialPath) (pair : FeedPair) : Prop := pair ∈ p.path

instance (p : PartialPath) (pair : FeedPair) : Decidable (p.contains pair) :=
  inferInstanceAs (Decidable (pair ∈ p.path))

/-- `PartialPath::evaluate_next_step` (brute_force.rs lines 387-399): clone
the cache state, simulate both accesses of the candidate pair, return the
would-be accumulated cost and the new state, without touching `self`. -/
def evaluate_next_step (p : PartialPath) (m : CacheModel) (next_step : FeedPair) :
    Cost × CacheEntries :=
  let r := simulate_pair m p.cache_entries next_step
  (p.cost_so_far + r.1, r.2)

/-- `PartialPath::commit_next_step` (brute_force.rs lines 408-421). -/
def commit_next_step (p : PartialPath) (next_step : FeedPair) (next_cost : Cost)
    (next_entries : CacheEntries) : PartialPath :=
  { path := p.path ++ [next_step]
    cache_entries := next_entries
    cost_so_far := next_cost }

/-- `PartialPath::finish_path` (brute_force.rs lines 424-428). -/
def finish_path (p : PartialPath) (last : FeedPair) : Path :=
  p.path ++ [last]

end PartialPath

/-! ## The neighbor table (brute_force.rs lines 114-149) -/

/-- The per-point record stored in the `neighbors` vector: the x coordinate
of the first neighbor, and for this x coordinate and the subsequent ones
the (half-open) range of y coordinates of the neighbors sharing it. -/
def neighborRecord (num_feeds max_radius : Nat) (curr : FeedPair) :
    Nat × List (Nat × Nat) :=
  let next_x_start := curr.1 - max_radius
  let next_x_end := min (curr.1 + max_radius + 1) num_feeds
  (next_x_start,
   (List.range' next_x_start (next_x_end - next_x_start)).map fun next_x =>
     (max (curr.2 - max_radius) next_x, min (curr.2 + max_radius + 1) num_feeds))

/-- The `neighborhood` closure (brute_force.rs lines 141-149): enumerate
the neighbors of a point from its stored record, as
`[first_next_x + next_x_offset, next_y]` over all stored y ranges. -/
def neighborhood (num_feeds max_radius : Nat) (curr : FeedPair) : List FeedPair :=
  let rec_ := neighborRecord num_feeds max_radius curr
  (rec_.2.enum.flatMap fun entry =>
    (List.range' entry.2.1 (entry.2.2 - entry.2.1)).map fun next_y =>
      (rec_.1 + entry.1, next_y))

/-! ## Domain, seeds, validity -/

/-- Spec §3: the domain `{(x, y) : 0 ≤ x ≤ y < num_feeds}`. -/
def inDomain (num_feeds : Nat) (p : FeedPair) : Prop :=
  p.1 ≤ p.2 ∧ p.2 < num_feeds

instance (n : Nat) (p : FeedPair) : Decidable (inDomain n p) :=
  inferInstanceAs (Decidable (_ ∧ _))

/-- The domain as a list, enumerated row by row. -/
def domainList (num_feeds : Nat) : Path :=
  (List.range num_feeds).flatMap fun y => (List.range (y + 1)).map fun x => (x, y)

/-- `path_length` (brute_force.rs line 59): `num_feeds·(num_feeds+1)/2`. -/
def pathLength (num_feeds : Nat) : Nat := num_feeds * (num_feeds + 1) / 2

/-- One step of a path honours the `max_radius` bound in both coordinates. -/
def stepOK (max_radius : Nat) (p q : FeedPair) : Prop :=
  Nat.dist p.1 q.1 ≤ max_radius ∧ Nat.dist p.2 q.2 ≤ max_radius

instance (r : Nat) (p q : FeedPair) : Decidable (stepOK r p q) :=
  inferInstanceAs (Decidable (_ ∧ _))

/-- A (possibly partial) valid path: pairwise distinct in-domain pairs,
consecutive steps within the radius. -/
def ValidPath (num_feeds max_radius : Nat) (path : Path) : Prop :=
  path.Nodup ∧ (∀ p ∈ path, inDomain num_feeds p) ∧ path.Chain' (stepOK max_radius)

/-- A complete Hamiltonian traversal of the domain under the step-radius
constraint (spec §3 "Path"). -/
def CompleteTraversal (num_feeds max_radius : Nat) (path : Path) : Prop :=
  ValidPath num_feeds max_radius path ∧ path.length = pathLength num_feeds

/-- The seeding enumeration (brute_force.rs lines 70-74):
`for start_y in 0..num_feeds { for start_x in 0..=start_y.min(num_feeds - start_y - 1) }`. -/
def seedList (num_feeds : Nat) : Path :=
  (List.range num_feeds).flatMap fun y =>
    (List.range (min y (num_feeds - y - 1) + 1)).map fun x => (x, y)

/-- The point-symmetric counterpart `(num_feeds-1-y, num_feeds-1-x)` of a
start point (brute_force.rs lines 65-67, spec §4.5 step 3). -/
def symPoint (num_feeds : Nat) (p : FeedPair) : FeedPair :=
  (num_feeds - 1 - p.2, num_feeds - 1 - p.1)

/-! ## The debug assertions of the neighbor precomputation

brute_force.rs guards the neighbor table construction with
`debug_assert!`s (lines 120-122 and 130-135).  They do not influence the
values computed, but a build with debug assertions enabled aborts if any of
them is false.  The conditions are embedded verbatim; the `as isize` casts
become casts into `ℤ`. -/

/-- `assert!(num_feeds > 1 && entry_size > 0 && max_radius >= 1 && best_cost > 0.0)`
(brute_force.rs line 41): the always-on precondition check. -/
def preconditionsOK (num_feeds entry_size max_radius : Nat) (best_cost : Cost) : Prop :=
  1 < num_feeds ∧ 0 < entry_size ∧ 1 ≤ max_radius ∧ 0 < best_cost

instance (n e r : Nat) (b : Cost) : Decidable (preconditionsOK n e r b) :=
  inferInstanceAs (Decidable (_ ∧ _ ∧ _ ∧ _))

/-- The three `debug_assert!`s on `next_x_range` (brute_force.rs lines
120-122), for a given `curr_x`. -/
def xRangeAssertsOK (num_feeds max_radius curr_x : Nat) : Bool :=
  let next_x_start := curr_x - max_radius
  let next_x_end := min (curr_x + max_radius + 1) num_feeds
  decide (next_x_end < num_feeds) &&
  decide ((curr_x : ℤ) - (next_x_start : ℤ) < (max_radius : ℤ)) &&
  decide ((next_x_end : ℤ) - (curr_x : ℤ) ≤ (max_radius : ℤ))

/-- The four `debug_assert!`s on `next_y_range` (brute_force.rs lines
130-135), for a given `curr_y` and candidate `next_x`. -/
def yRangeAssertsOK (num_feeds max_radius curr_y next_x : Nat) : Bool :=
  let next_y_start := max (curr_y - max_radius) next_x
  let next_y_end := min (curr_y + max_radius + 1) num_feeds
  decide (next_y_end < num_feeds) &&
  decide ((curr_y : ℤ) - (next_y_start : ℤ) < (max_radius : ℤ)) &&
  decide ((next_y_end : ℤ) - (curr_y : ℤ) ≤ (max_radius : ℤ)) &&
  decide (next_x ≤ next_y_start)

/-- All debug assertions executed by the neighbor-table precomputation
(brute_force.rs lines 116-140): for every domain point, the x-range
assertions, and the y-range assertions for every candidate `next_x`. -/
def neighborAssertsOK (num_feeds max_radius : Nat) : Bool :=
  (domainList num_feeds).all fun p =>
    let next_x_start := p.1 - max_radius
    let next_x_end := min (p.1 + max_radius + 1) num_feeds
    xRangeAssertsOK num_feeds max_radius p.1 &&
    (List.range' next_x_start (next_x_end - next_x_start)).all fun next_x =>
      yRangeAssertsOK num_feeds max_radius p.2 next_x

/-! ## The search driver (brute_force.rs lines 34-301)

The frontier is modelled as a plain list of partial paths; an oracle
`ℕ → ℕ` picks which element each `pop` removes (indexed by the iteration
counter, reduced modulo the frontier size).  The real `PartialPaths`
structure always pops a random element of the highest-priority bucket;
every such behaviour is one of the oracle behaviours, and every theorem
below is proved for all oracles, hence covers the bucketed frontier with
any random sequence.

The loop is written with explicit fuel to keep it a structural recursion;
`searchFuel` supplies enough fuel for the loop to always reach the empty
frontier (proved below), so `search_best_path` is total. -/

/-- State of the driver loop: live frontier, best complete path found so
far (empty = none yet, as in the source), current pruning bound (the
mutable `best_cost`), and the iteration counter feeding the pop oracle. -/
structure SearchState where
  frontier : List PartialPath
  best_path : Path
  best_cost : Cost
  tick : Nat

/-- One candidate `next_step` of the expansion loop (brute_force.rs lines
193-289), at debug level 1 (the compiled constant `BRUTE_FORCE_DEBUG_LEVEL`):
skip visited points, skip candidates whose hypothetical cost meets or
exceeds the bound, record strictly improving complete paths, push the
surviving incomplete extensions.  The accumulator carries
`(best_path, best_cost, pushed nodes)`. -/
def candidateStep (m : CacheModel) (path_length : Nat) (node : PartialPath)
    (acc : Path × Cost × List PartialPath) (next_step : FeedPair) :
    Path × Cost × List PartialPath :=
  if node.contains next_step then acc
  else
    let r := node.evaluate_next_step m next_step
    if acc.2.1 ≤ r.1 then acc
    else if node.len + 1 = path_length then
      if r.1 < acc.2.1 then (node.finish_path next_step, r.1, acc.2.2) else acc
    else (acc.1, acc.2.1, acc.2.2 ++ [node.commit_next_step next_step r.1 r.2])

/-- The main loop (brute_force.rs lines 157-293): pop a node chosen by the
oracle, prune it if its accumulated cost meets or exceeds the bound,
otherwise expand it through the neighborhood of its last step. -/
def searchLoop (m : CacheModel) (num_feeds max_radius path_length : Nat)
    (oracle : Nat → Nat) : Nat → SearchState → Option (Option (Cost × Path))
  | 0, _ => none
  | fuel + 1, st =>
    match st.frontier with
    | [] => some (if st.best_path.isEmpty then none
                  else some (st.best_cost, st.best_path))
    | _ :: _ =>
      let i := oracle st.tick % st.frontier.length
      let node := st.frontier.getD i (PartialPath.new m (0, 0))
      let rest := st.frontier.eraseIdx i
      if st.best_cost ≤ node.cost_so_far then
        searchLoop m num_feeds max_radius path_length oracle fuel
          ⟨rest, st.best_path, st.best_cost, st.tick + 1⟩
      else
        let acc := (neighborhood num_feeds max_radius node.last_step).foldl
          (candidateStep m path_length node) (st.best_path, st.best_cost, [])
        searchLoop m num_feeds max_radius path_length oracle fuel
          ⟨rest ++ acc.2.2, acc.1, acc.2.1, st.tick + 1⟩

/-- The initial state: one seeded node per start point enumerated by the
seeding loop (brute_force.rs lines 69-74), no best path, the caller's
bound. -/
def initState (m : CacheModel) (num_feeds : Nat) (best_cost : Cost) : SearchState :=
  ⟨(seedList num_feeds).map (PartialPath.new m), [], best_cost, 0⟩

/-- Termination weight of one frontier node: children of a node are one
step longer and number at most `num_feeds²`, so the total weight strictly
drops at every iteration. -/
def nodeWeight (num_feeds path_length : Nat) (p : PartialPath) : Nat :=
  (num_feeds * num_feeds + 1) ^ (path_length - p.len)

/-- Total termination weight of a frontier. -/
def frontierMeasure (num_feeds path_length : Nat) (l : List PartialPath) : Nat :=
  (l.map (nodeWeight num_feeds path_length)).sum

/-- Fuel sufficient for the loop to drain the frontier (proved below). -/
def searchFuel (m : CacheModel) (num_feeds : Nat) (best_cost : Cost)
    (path_length : Nat) : Nat :=
  frontierMeasure num_feeds path_length (initState m num_feeds best_cost).frontier + 1

/-- `search_best_path` (brute_force.rs lines 34-301), release semantics,
parameterised by the pop oracle (see above).  The caller-precondition
`assert!` of line 41 is modelled as a hypothesis of the theorems.  -/
def search_best_path (num_feeds entry_size max_radius : Nat) (best_cost : Cost)
    (oracle : Nat → Nat) : Option (Cost × Path) :=
  let m := CacheModel.new entry_size
  let path_length := pathLength num_feeds
  (searchLoop m num_feeds max_radius path_length oracle
      (searchFuel m num_feeds best_cost path_length)
      (initState m num_feeds best_cost)).getD none

/-! ## Spec-side notions used by the claims -/

/-- A traversal the seeding stage starts from: a complete traversal whose
first pair is one of the seeded start points. -/
def SeededTraversal (num_feeds max_radius : Nat) (q : Path) : Prop :=
  CompleteTraversal num_feeds max_radius q ∧
    ∃ s ∈ seedList num_feeds, q.head? = some s

/-- The invariant carried by every live frontier node: a nonempty valid
partial path starting at a seed, strictly shorter than a complete path,
whose stored cache state and accumulated cost are exactly those obtained
by simulating every pair after the first (release builds never simulate
the first pair, see `PartialPath.new`). -/
def GoodNode (m : CacheModel) (num_feeds max_radius : Nat) (nd : PartialPath) : Prop :=
  nd.path ≠ [] ∧
  (∃ s ∈ seedList num_feeds, nd.path.head? = some s) ∧
  ValidPath num_feeds max_radius nd.path ∧
  nd.path.length < pathLength num_feeds ∧
  nd.cache_entries = tailState m nd.path ∧
  nd.cost_so_far = tailCost m nd.path

/-- The invariant of the recorded best: a seeded complete traversal whose
accumulated (tail) cost is the recorded bound, strictly below the caller's
initial bound. -/
def GoodBest (m : CacheModel) (num_feeds max_radius : Nat) (B : Cost)
    (bp : Path) (bc : Cost) : Prop :=
  SeededTraversal num_feeds max_radius bp ∧ tailCost m bp = bc ∧ bc < B

/-- The loop invariant of the search driver. -/
def SearchInv (m : CacheModel) (num_feeds max_radius : Nat) (B : Cost)
    (st : SearchState) : Prop :=
  (∀ nd ∈ st.frontier, GoodNode m num_feeds max_radius nd) ∧
  (st.best_path = [] ∧ st.best_cost = B ∨
     GoodBest m num_feeds max_radius B st.best_path st.best_cost) ∧
  (∀ q, SeededTraversal num_feeds max_radius q → tailCost m q < st.best_cost →
     ∃ nd ∈ st.frontier, nd.path <+: q)

/-- What the search returns, characterised: `none` iff no seeded complete
traversal has accumulated cost strictly below the caller's bound; otherwise
a seeded complete traversal of minimal accumulated cost among all seeded
complete traversals, with its cost. -/
def ResultSpec (m : CacheModel) (num_feeds max_radius : Nat) (B : Cost) :
    Option (Cost × Path) → Prop
  | none => ∀ q, SeededTraversal num_feeds max_radius q → B ≤ tailCost m q
  | some cp =>
      SeededTraversal num_feeds max_radius cp.2 ∧ tailCost m cp.2 = cp.1 ∧
      cp.1 < B ∧
      ∀ q, SeededTraversal num_feeds max_radius q → cp.1 ≤ tailCost m q

/-- Invariant of the inner expansion fold (the `for next_step in
neighborhood(..)` loop): the accumulator's best record is sound, pushed
children are good nodes one step longer than the expanded node, and every
seeded complete traversal strictly cheaper than the current bound has a
prefix among the untouched frontier (`rest`), the pushed children, or goes
through a candidate still to be processed (`steps`). -/
def FoldInv (m : CacheModel) (num_feeds max_radius : Nat) (B : Cost)
    (node : PartialPath) (rest : List PartialPath)
    (steps : List FeedPair) (acc : Path × Cost × List PartialPath) : Prop :=
  ((acc.1 = [] ∧ acc.2.1 = B) ∨ GoodBest m num_feeds max_radius B acc.1 acc.2.1) ∧
  (∀ nd ∈ acc.2.2, GoodNode m num_feeds max_radius nd ∧
      nd.path.length = node.path.length + 1) ∧
  (∀ q, SeededTraversal num_feeds max_radius q → tailCost m q < acc.2.1 →
    (∃ nd ∈ rest, nd.path <+: q) ∨ (∃ nd ∈ acc.2.2, nd.path <+: q) ∨
    (∃ s ∈ steps, (node.path ++ [s]) <+: q))

/-! # Theorems -/

/-! ## Cache model lemmas -/

theorem cost_model_eval (m : CacheModel) (age : Nat) :
    m.cost_model age =
      if age < m.l1_entries then 0
      else if age < m.l2_entries then 1
      else if age < m.l3_entries then 5 else 30 := by
  unfold CacheModel.cost_model L2_MISS_COST L1_MISS_COST L3_MISS_COST
  norm_num

theorem cost_model_nonneg (m : CacheModel) (age : Nat) : 0 ≤ m.cost_model age := by
  rw [cost_model_eval]
  split <;> norm_num
  split <;> norm_num
  split <;> norm_num

theorem findIdx?_append_first_hit {α : Type} (p : α → Bool) (l1 l2 : List α) (e : α)
    (h1 : ∀ x ∈ l1, p x = false) (he : p e = true) :
    List.findIdx? p (l1 ++ e :: l2) = some l1.length := by
  induction l1 with
  | nil => simp [List.findIdx?_cons, he]
  | cons a l ih =>
      have ha : p a = false := h1 a (by simp)
      have ih' := ih (fun x hx => h1 x (by simp [hx]))
      simp [List.findIdx?_cons, ha, ih', Function.comp]

theorem rposition_eq_none (entries : CacheEntries) (e : FeedIdx) (h : e ∉ entries) :
    CacheModel.rposition entries e = none := by
  unfold CacheModel.rposition
  have : List.findIdx? (fun item => item = e) entries.reverse = none := by
    rw [List.findIdx?_eq_none_iff]
    intro x hx
    simp only [decide_eq_false_iff_not]
    intro hxe
    exact h (by simpa [hxe] using List.mem_reverse.1 hx)
  simp [this]

theorem rposition_last_occ (front back : CacheEntries) (e : FeedIdx) (h : e ∉ back) :
    CacheModel.rposition (front ++ e :: back) e = some front.length := by
  unfold CacheModel.rposition
  have hrev : (front ++ e :: back).reverse = back.reverse ++ e :: front.reverse := by
    simp
  have hfind : List.findIdx? (fun item => item = e) (front ++ e :: back).reverse
      = some back.reverse.length := by
    rw [hrev]
    refine findIdx?_append_first_hit _ _ _ _ ?_ (by simp)
    intro x hx
    simp only [decide_eq_false_iff_not]
    intro hxe
    exact h (by simpa [hxe] using List.mem_reverse.1 hx)
  rw [hfind]
  simp only [List.length_reverse, List.length_append, List.length_cons]
  congr 1
  omega

theorem eraseIdx_append_middle {α : Type} (front : List α) (e : α) (back : List α) :
    (front ++ e :: back).eraseIdx front.length = front ++ back := by
  induction front with
  | nil => simp [List.eraseIdx]
  | cons a l ih => simp [List.eraseIdx, ih]

theorem simulate_access_not_mem (m : CacheModel) (entries : CacheEntries)
    (e : FeedIdx) (h : e ∉ entries) :
    m.simulate_access entries e = (0, entries ++ [e]) := by
  unfold CacheModel.simulate_access
  rw [rposition_eq_none entries e h]

theorem simulate_access_last_occ (m : CacheModel) (front back : CacheEntries)
    (e : FeedIdx) (h : e ∉ back) :
    m.simulate_access (front ++ e :: back) e
      = (m.cost_model back.length, (front ++ back) ++ [e]) := by
  unfold CacheModel.simulate_access
  rw [rposition_last_occ front back e h]
  dsimp only
  rw [eraseIdx_append_middle]
  have hlen : (front ++ e :: back).length - front.length - 1 = back.length := by
    simp only [List.length_append, List.length_cons]
    omega
  rw [hlen]

theorem exists_last_decomp (entries : CacheEntries) (e : FeedIdx) (h : e ∈ entries) :
    ∃ front back, entries = front ++ e :: back ∧ e ∉ back := by
  induction entries with
  | nil => cases h
  | cons a l ih =>
      by_cases hl : e ∈ l
      · obtain ⟨front, back, hfb, hback⟩ := ih hl
        exact ⟨a :: front, back, by simp [hfb], hback⟩
      · have ha : a = e := by
          rcases List.mem_cons.1 h with h' | h'
          · exact h'.symm
          · exact absurd h' hl
        exact ⟨[], l, by simp [ha], hl⟩

theorem simulate_access_cost_nonneg (m : CacheModel) (entries : CacheEntries)
    (e : FeedIdx) : 0 ≤ (m.simulate_access entries e).1 := by
  unfold CacheModel.simulate_access
  cases h : CacheModel.rposition entries e with
  | none => simp
  | some pos => simpa using cost_model_nonneg m (entries.length - pos - 1)

theorem simulate_access_getLast (m : CacheModel) (entries : CacheEntries)
    (e : FeedIdx) : (m.simulate_access entries e).2.getLast? = some e := by
  unfold CacheModel.simulate_access
  cases h : CacheModel.rposition entries e with
  | none => simp
  | some pos => simp

theorem simulate_access_length (m : CacheModel) (entries : CacheEntries) (e : FeedIdx) :
    (m.simulate_access entries e).2.length
      = entries.length + (if e ∈ entries then 0 else 1) := by
  by_cases h : e ∈ entries
  · obtain ⟨front, back, rfl, hback⟩ := exists_last_decomp entries e h
    rw [simulate_access_last_occ m front back e hback]
    simp [h]
  · rw [simulate_access_not_mem m entries e h]
    simp [h]

theorem simulate_access_perm (m : CacheModel) (entries : CacheEntries) (e : FeedIdx)
    (h : e ∈ entries) : (m.simulate_access entries e).2.Perm entries := by
  obtain ⟨front, back, rfl, hback⟩ := exists_last_decomp entries e h
  rw [simulate_access_last_occ m front back e hback]
  exact (List.perm_append_singleton e (front ++ back)).trans List.perm_middle.symm

theorem simulate_access_nodup (m : CacheModel) (entries : CacheEntries) (e : FeedIdx)
    (h : entries.Nodup) : (m.simulate_access entries e).2.Nodup := by
  by_cases hm : e ∈ entries
  · exact ((simulate_access_perm m entries e hm).nodup_iff).2 h
  · rw [simulate_access_not_mem m entries e hm]
    have : (entries ++ [e]).Perm (e :: entries) := List.perm_append_singleton e entries
    exact this.nodup_iff.2 (List.nodup_cons.2 ⟨hm, h⟩)

theorem simulate_access_mem (m : CacheModel) (entries : CacheEntries) (e a : FeedIdx) :
    a ∈ (m.simulate_access entries e).2 ↔ a ∈ entries ∨ a = e := by
  by_cases hm : e ∈ entries
  · obtain ⟨front, back, rfl, hback⟩ := exists_last_decomp entries e hm
    rw [simulate_access_last_occ m front back e hback]
    simp only [List.mem_append, List.mem_cons, List.mem_singleton]
    tauto
  · rw [simulate_access_not_mem m entries e hm]
    simp only [List.mem_append, List.mem_singleton]

theorem simulate_access_snd_concat (m : CacheModel) (entries : CacheEntries)
    (e : FeedIdx) : ∃ X, (m.simulate_access entries e).2 = X ++ [e] := by
  unfold CacheModel.simulate_access
  cases h : CacheModel.rposition entries e with
  | none => exact ⟨entries, rfl⟩
  | some pos => exact ⟨entries.eraseIdx pos, rfl⟩

/-! ## Pair and sequence lemmas -/

theorem simulate_pair_cost_nonneg (m : CacheModel) (entries : CacheEntries)
    (p : FeedPair) : 0 ≤ (simulate_pair m entries p).1 := by
  unfold simulate_pair
  have h1 := simulate_access_cost_nonneg m entries p.1
  have h2 := simulate_access_cost_nonneg m (m.simulate_access entries p.1).2 p.2
  dsimp only
  linarith

theorem simulate_pairs_cost_nonneg (m : CacheModel) (entries : CacheEntries)
    (ps : List FeedPair) : 0 ≤ (simulate_pairs m entries ps).1 := by
  induction ps generalizing entries with
  | nil => simp [simulate_pairs]
  | cons p ps ih =>
      have h1 := simulate_pair_cost_nonneg m entries p
      have h2 := ih (simulate_pair m entries p).2
      simp only [simulate_pairs]
      linarith

theorem simulate_pairs_append (m : CacheModel) (entries : CacheEntries)
    (l1 l2 : List FeedPair) :
    simulate_pairs m entries (l1 ++ l2)
      = ((simulate_pairs m entries l1).1
           + (simulate_pairs m (simulate_pairs m entries l1).2 l2).1,
         (simulate_pairs m (simulate_pairs m entries l1).2 l2).2) := by
  induction l1 generalizing entries with
  | nil => simp [simulate_pairs]
  | cons p ps ih =>
      simp only [List.cons_append, simulate_pairs, List.append_eq]
      rw [ih]
      simp [add_assoc]

theorem tail_append_of_ne_nil {α : Type} (l : List α) (t : List α) (h : l ≠ []) :
    (l ++ t).tail = l.tail ++ t := by
  cases l with
  | nil => exact absurd rfl h
  | cons a l => simp

theorem tailCost_concat (m : CacheModel) (path : Path) (s : FeedPair)
    (h : path ≠ []) :
    tailCost m (path ++ [s])
      = tailCost m path + (simulate_pair m (tailState m path) s).1 := by
  unfold tailCost tailState
  rw [tail_append_of_ne_nil path [s] h, simulate_pairs_append]
  simp [simulate_pairs]

theorem tailState_concat (m : CacheModel) (path : Path) (s : FeedPair)
    (h : path ≠ []) :
    tailState m (path ++ [s]) = (simulate_pair m (tailState m path) s).2 := by
  unfold tailState
  rw [tail_append_of_ne_nil path [s] h, simulate_pairs_append]
  simp [simulate_pairs]

theorem evaluate_next_step_eq (m : CacheModel) (nd : PartialPath) (s : FeedPair)
    (hne : nd.path ≠ []) (he : nd.cache_entries = tailState m nd.path)
    (hc : nd.cost_so_far = tailCost m nd.path) :
    nd.evaluate_next_step m s
      = (tailCost m (nd.path ++ [s]), tailState m (nd.path ++ [s])) := by
  unfold PartialPath.evaluate_next_step
  rw [he, hc, tailCost_concat m nd.path s hne, tailState_concat m nd.path s hne]

theorem tailCost_prefix_le (m : CacheModel) (p q : Path) (h : p <+: q) :
    tailCost m p ≤ tailCost m q := by
  obtain ⟨t, rfl⟩ := h
  cases p with
  | nil =>
      have h0 : 0 ≤ (simulate_pairs m CacheModel.start_simulation t.tail).1 :=
        simulate_pairs_cost_nonneg m _ _
      simpa [tailCost, simulate_pairs] using h0
  | cons a l =>
      unfold tailCost
      rw [tail_append_of_ne_nil (a :: l) t (by simp), simulate_pairs_append]
      have h0 := simulate_pairs_cost_nonneg m
        (simulate_pairs m CacheModel.start_simulation (a :: l).tail).2 t
      simp only [List.tail_cons] at *
      linarith

/-- C6: `simulate_access(state, entry)` returns 0 and appends the entry at
the tail on a first touch; if the entry occurs, with `age` entries more
recent than its most recent occurrence, it charges 0 when
`age < l1_entries`, 1 when `age < l2_entries`, 5 (the tier-2/tier-1 cost
ratio `10.0/2.0`) when `age < l3_entries` and 30 (the tier-3/tier-1 ratio
`60.0/2.0`) otherwise, and moves the entry to the tail; and a repeated
access with no intervening accesses costs 0 whenever `l1_entries ≥ 1`. -/
theorem c6_simulate_access_cost (m : CacheModel) :
    (∀ entries e, e ∉ entries →
        m.simulate_access entries e = (0, entries ++ [e]))
    ∧ (∀ front e back, e ∉ back →
        m.simulate_access (front ++ e :: back) e
          = (m.cost_model back.length, (front ++ back) ++ [e]))
    ∧ (∀ age, m.cost_model age
          = if age < m.l1_entries then 0
            else if age < m.l2_entries then 1
            else if age < m.l3_entries then 5 else 30)
    ∧ (1 ≤ m.l1_entries → ∀ entries e,
        (m.simulate_access (m.simulate_access entries e).2 e).1 = 0) := by
  refine ⟨fun entries e h => simulate_access_not_mem m entries e h,
          fun front e back h => simulate_access_last_occ m front back e h,
          fun age => cost_model_eval m age,
          fun h1 entries e => ?_⟩
  obtain ⟨X, hX⟩ := simulate_access_snd_concat m entries e
  rw [hX, simulate_access_last_occ m X [] e (by simp)]
  have h0 : m.cost_model (List.length ([] : CacheEntries)) = 0 := by
    rw [cost_model_eval]
    simp only [List.length_nil]
    rw [if_pos (by omega)]
  simpa using h0

/-- C6 witness: first touch of entry 0 on the state `[1, 2]` costs 0 and
appends at the tail. -/
theorem c6_witness :
    ((0 : FeedIdx) ∉ ([1, 2] : CacheEntries)) ∧
      (CacheModel.new 1024).simulate_access [1, 2] 0 = (0, [1, 2, 0]) :=
  ⟨by decide, (c6_simulate_access_cost (CacheModel.new 1024)).1 [1, 2] 0 (by decide)⟩

/-- C10: starting from the empty recency list, after any sequence of
`simulate_access` calls the list has no duplicate entry, the most recently
accessed entry is its last element, and one further access grows the
length by exactly one on a first touch and leaves it unchanged otherwise
(no entry is ever evicted). -/
theorem c10_recency_list_invariants (m : CacheModel) :
    (∀ es, (simulate_seq m [] es).Nodup)
    ∧ (∀ es e, (simulate_seq m [] (es ++ [e])).getLast? = some e)
    ∧ (∀ es e, (m.simulate_access (simulate_seq m [] es) e).2.length
          = (simulate_seq m [] es).length
            + (if e ∈ simulate_seq m [] es then 0 else 1)) := by
  have happ : ∀ es (e : FeedIdx) entries,
      simulate_seq m entries (es ++ [e])
        = (m.simulate_access (simulate_seq m entries es) e).2 := by
    intro es
    induction es with
    | nil => intro e entries; rfl
    | cons a l ih => intro e entries; exact ih e (m.simulate_access entries a).2
  have hnodup : ∀ es entries, entries.Nodup → (simulate_seq m entries es).Nodup := by
    intro es
    induction es with
    | nil => intro entries h; exact h
    | cons a l ih =>
        intro entries h
        exact ih _ (simulate_access_nodup m entries a h)
  refine ⟨fun es => hnodup es [] (by simp),
          fun es e => ?_,
          fun es e => simulate_access_length m _ e⟩
  rw [happ es e []]
  exact simulate_access_getLast m _ e

/-- C7: `evaluate_next_step` never returns a cost below the node's current
accumulated cost (every simulated access costs at least 0), and the
accumulated (tail) cost of a path never decreases when the path is
extended.  The embedding of `evaluate_next_step` is a pure function of the
node, so the node itself is untouched. -/
theorem c7_evaluate_next_step_monotone :
    (∀ (nd : PartialPath) (m : CacheModel) (s : FeedPair),
        nd.cost_so_far ≤ (nd.evaluate_next_step m s).1)
    ∧ (∀ (m : CacheModel) (path ext : Path),
        tailCost m path ≤ tailCost m (path ++ ext)) := by
  constructor
  · intro nd m s
    have h := simulate_pair_cost_nonneg m nd.cache_entries s
    unfold PartialPath.evaluate_next_step
    dsimp only
    linarith
  · intro m path ext
    exact tailCost_prefix_le m path (path ++ ext) ⟨ext, rfl⟩

/-- C5 (code bug): in release builds — the only builds in which
`search_best_path` runs past the neighbor-table precomputation, see
`c4_neighbor_asserts_fail` — the two `simulate_access` calls of
`PartialPath::new` sit inside `debug_assert_eq!` and are compiled out, so
the returned node's recency state is empty instead of recording the two
feeds of the start pair.  Moreover even in a debug build the claim fails:
the last conjunct shows that for `entry_size = 65536` (`l1_entries = 0`)
the second access of the start pair `(0, 0)` costs 1, not 0, so
`debug_assert_eq!(…, 0.0)` aborts. -/
theorem c5_new_does_not_record_start_pair :
    (PartialPath.new (CacheModel.new 65536) (0, 1)).cache_entries = []
    ∧ (PartialPath.new (CacheModel.new 65536) (0, 1)).path = [(0, 1)]
    ∧ (PartialPath.new (CacheModel.new 65536) (0, 1)).cost_so_far = 0
    ∧ ((CacheModel.new 65536).simulate_access
        ((CacheModel.new 65536).simulate_access CacheModel.start_simulation 0).2 0).1
        = 1 := by
  refine ⟨rfl, rfl, rfl, ?_⟩
  decide

/-! ## Domain, seed and neighbor-table lemmas -/

theorem mem_grid (n : Nat) (k : Nat → Nat) (p : FeedPair) :
    p ∈ ((List.range n).flatMap fun y => (List.range (k y)).map fun x => (x, y))
      ↔ p.2 < n ∧ p.1 < k p.2 := by
  cases p with
  | mk px py =>
      simp only [List.mem_flatMap, List.mem_map, List.mem_range]
      constructor
      · rintro ⟨y, hy, x, hx, hxy⟩
        obtain ⟨rfl, rfl⟩ : x = px ∧ y = py := by
          constructor <;> [exact congrArg Prod.fst hxy; exact congrArg Prod.snd hxy]
        exact ⟨hy, hx⟩
      · rintro ⟨hy, hx⟩
        exact ⟨py, hy, px, hx, rfl⟩

theorem nodup_grid (n : Nat) (k : Nat → Nat) :
    ((List.range n).flatMap fun y => (List.range (k y)).map fun x => (x, y)).Nodup := by
  rw [List.nodup_flatMap]
  constructor
  · intro y _
    exact (List.nodup_range (k y)).map fun a b hab => congrArg Prod.fst hab
  · have hlt := List.pairwise_lt_range n
    refine hlt.imp ?_
    intro y1 y2 h12 a ha1 ha2
    obtain ⟨x1, _, rfl⟩ := List.mem_map.1 ha1
    obtain ⟨x2, _, hx2⟩ := List.mem_map.1 ha2
    have : y2 = y1 := congrArg Prod.snd hx2
    omega

theorem mem_domainList (n : Nat) (p : FeedPair) :
    p ∈ domainList n ↔ inDomain n p := by
  constructor
  · intro h
    have h2 : p.2 < n ∧ p.1 < p.2 + 1 := (mem_grid n (fun y => y + 1) p).1 h
    exact ⟨by omega, by omega⟩
  · intro h
    obtain ⟨h1, h2⟩ := h
    refine (mem_grid n (fun y => y + 1) p).2 ?_
    show p.2 < n ∧ p.1 < p.2 + 1
    omega

theorem nodup_domainList (n : Nat) : (domainList n).Nodup := nodup_grid n _

theorem mem_seedList (n : Nat) (p : FeedPair) :
    p ∈ seedList n ↔ p.2 < n ∧ p.1 ≤ min p.2 (n - p.2 - 1) := by
  constructor
  · intro h
    have h2 : p.2 < n ∧ p.1 < min p.2 (n - p.2 - 1) + 1 :=
      (mem_grid n (fun y => min y (n - y - 1) + 1) p).1 h
    exact ⟨by omega, by omega⟩
  · intro h
    obtain ⟨h1, h2⟩ := h
    refine (mem_grid n (fun y => min y (n - y - 1) + 1) p).2 ?_
    show p.2 < n ∧ p.1 < min p.2 (n - p.2 - 1) + 1
    omega

theorem nodup_seedList (n : Nat) : (seedList n).Nodup := nodup_grid n _

theorem seed_inDomain (n : Nat) (p : FeedPair) (h : p ∈ seedList n) : inDomain n p := by
  rw [mem_seedList] at h
  exact ⟨by omega, by omega⟩

theorem pathLength_succ (n : Nat) : pathLength (n + 1) = pathLength n + (n + 1) := by
  unfold pathLength
  have h : (n + 1) * (n + 1 + 1) = n * (n + 1) + (n + 1) * 2 := by ring
  rw [h, Nat.add_mul_div_right _ _ (by omega : 0 < 2)]

theorem domainList_length (n : Nat) : (domainList n).length = pathLength n := by
  induction n with
  | zero => rfl
  | succ k ih =>
      rw [pathLength_succ]
      unfold domainList at *
      rw [List.range_succ, List.flatMap_append]
      simp only [List.length_append, ih]
      simp [List.flatMap]

theorem pathLength_ge_three (n : Nat) (hn : 2 ≤ n) : 3 ≤ pathLength n := by
  unfold pathLength
  rw [Nat.le_div_iff_mul_le (by omega : 0 < 2)]
  calc 3 * 2 = 2 * 3 := by ring
    _ ≤ n * (n + 1) := Nat.mul_le_mul hn (by omega)

theorem enumFrom_map {α β : Type} (f : α → β) (l : List α) (k : Nat) :
    (l.map f).enumFrom k = (l.enumFrom k).map fun e => (e.1, f e.2) := by
  induction l generalizing k with
  | nil => rfl
  | cons a l ih =>
      simp only [List.map_cons, List.enumFrom_cons, ih]

theorem enumFrom_range' (len : Nat) :
    ∀ s k : Nat, (List.range' s len).enumFrom k
      = (List.range len).map fun i => (k + i, s + i) := by
  induction len with
  | zero => intro s k; rfl
  | succ len ih =>
      intro s k
      rw [List.range'_succ, List.enumFrom_cons, ih (s + 1) (k + 1),
        List.range_succ_eq_map, List.map_cons, List.map_map]
      refine congrArg₂ _ (by simp) ?_
      refine List.map_congr_left ?_
      intro i _
      simp only [Function.comp]
      refine congrArg₂ _ (by omega) (by omega)

theorem neighborhood_eq (n r x y : Nat) :
    neighborhood n r (x, y)
      = (List.range' (x - r) (min (x + r + 1) n - (x - r))).flatMap fun nx =>
          (List.range' (max (y - r) nx) (min (y + r + 1) n - max (y - r) nx)).map
            fun ny => (nx, ny) := by
  unfold neighborhood neighborRecord
  dsimp only
  rw [show ∀ (l : List (Nat × Nat)), l.enum = l.enumFrom 0 from fun _ => rfl]
  rw [enumFrom_map, enumFrom_range', List.map_map]
  conv_lhs => rw [List.flatMap_map]
  conv_rhs => rw [List.range'_eq_map_range, List.flatMap_map]
  refine List.flatMap_congr ?_
  intro i _
  simp

theorem mem_neighborhood (n r x y : Nat) (q : FeedPair) (hy : y < n) :
    q ∈ neighborhood n r (x, y) ↔
      (x - r ≤ q.1 ∧ q.1 ≤ min (n - 1) (x + r) ∧
       max (y - r) q.1 ≤ q.2 ∧ q.2 ≤ min (n - 1) (y + r)) := by
  obtain ⟨qx, qy⟩ := q
  rw [neighborhood_eq]
  simp only [List.mem_flatMap, List.mem_map, List.mem_range'_1]
  constructor
  · rintro ⟨nx, hnx, ny, hny, hq⟩
    have hq1 : nx = qx := congrArg Prod.fst hq
    have hq2 : ny = qy := congrArg Prod.snd hq
    subst hq1
    subst hq2
    obtain ⟨hn1, hn2⟩ := hnx
    obtain ⟨hm1, hm2⟩ := hny
    have hyb : ny < min (y + r + 1) n := by
      rcases le_or_lt (max (y - r) nx) (min (y + r + 1) n) with hab | hab
      · rw [Nat.add_sub_cancel' hab] at hm2
        exact hm2
      · have hz : min (y + r + 1) n - max (y - r) nx = 0 := by omega
        rw [hz] at hm2
        omega
    have hxb : nx < min (x + r + 1) n := by
      rcases le_or_lt (x - r) (min (x + r + 1) n) with hab | hab
      · rw [Nat.add_sub_cancel' hab] at hn2
        exact hn2
      · omega
    refine ⟨by omega, by omega, by omega, by omega⟩
  · rintro ⟨h1, h2, h3, h4⟩
    have hh : x - r ≤ qx ∧ qx ≤ min (n - 1) (x + r) ∧
        max (y - r) qx ≤ qy ∧ qy ≤ min (n - 1) (y + r) := ⟨h1, h2, h3, h4⟩
    obtain ⟨g1, g2, g3, g4⟩ := hh
    have hxr : x - r ≤ min (x + r + 1) n := by omega
    have hmem1 : x - r ≤ qx ∧ qx < x - r + (min (x + r + 1) n - (x - r)) := by
      rw [Nat.add_sub_cancel' hxr]
      exact ⟨by omega, by omega⟩
    refine ⟨qx, hmem1, qy, ?_, rfl⟩
    have hab : max (y - r) qx ≤ min (y + r + 1) n := by omega
    rw [Nat.add_sub_cancel' hab]
    exact ⟨by omega, by omega⟩

theorem nodup_neighborhood (n r x y : Nat) : (neighborhood n r (x, y)).Nodup := by
  rw [neighborhood_eq]
  rw [List.nodup_flatMap]
  constructor
  · intro nx _
    refine (List.nodup_range' _ _).map ?_
    intro a b hab
    exact congrArg Prod.snd hab
  · refine (List.nodup_range' _ _).imp ?_
    intro a b hab p hpa hpb
    obtain ⟨n1, _, rfl⟩ := List.mem_map.1 hpa
    obtain ⟨n2, _, h2⟩ := List.mem_map.1 hpb
    exact hab (congrArg Prod.fst h2).symm

/-- C3: for every legal source point, the neighbor table's enumeration
yields exactly the pairs `(x', y')` with `x' ∈ [max(0, x-r), min(n-1, x+r)]`
and, for each such `x'`, `y' ∈ [max(x', y-r), min(n-1, y+r)]`, each exactly
once; in particular with `max_radius = 1`, `num_feeds = 4` the enumeration
for `(0,0)` excludes `(2,2)` and contains only in-domain points within
Chebyshev distance 1 of `(0,0)`.  (In `ℕ`, `x - r` is `max (0, x-r)`.) -/
theorem c3_neighborhood_enumeration (n r x y : Nat) (hxy : x ≤ y) (hy : y < n) :
    (∀ q : FeedPair, q ∈ neighborhood n r (x, y) ↔
        (x - r ≤ q.1 ∧ q.1 ≤ min (n - 1) (x + r) ∧
         max (y - r) q.1 ≤ q.2 ∧ q.2 ≤ min (n - 1) (y + r)))
    ∧ (neighborhood n r (x, y)).Nodup
    ∧ ((2, 2) ∉ neighborhood 4 1 (0, 0)
        ∧ ∀ q ∈ neighborhood 4 1 (0, 0),
            inDomain 4 q ∧ Nat.dist 0 q.1 ≤ 1 ∧ Nat.dist 0 q.2 ≤ 1) := by
  refine ⟨fun q => mem_neighborhood n r x y q hy, nodup_neighborhood n r x y, ?_, ?_⟩
  · decide
  · decide

/-- C3 witness: instantiating the characterisation at `n = 4`, `r = 1`,
source point `(0, 0)`: the point `(1, 1)` is enumerated. -/
theorem c3_witness :
    (0 ≤ (1 : Nat) ∧ 1 < (4 : Nat)) ∧ ((1, 1) : FeedPair) ∈ neighborhood 4 1 (0, 0) :=
  ⟨⟨by decide, by decide⟩,
   ((c3_neighborhood_enumeration 4 1 0 0 (by decide) (by decide)).1 (1, 1)).2 (by decide)⟩

/-! ## The seeding symmetry reduction (C8) -/

/-- C8: the seeding loop seeds no start point twice, and for every in-domain
point exactly one of the point and its point-symmetric counterpart is
seeded; a self-symmetric point is seeded (exactly once, by the first
conjunct). -/
theorem c8_seeding_symmetry (n : Nat) (hn : 2 ≤ n) (p : FeedPair)
    (hp : inDomain n p) :
    (seedList n).Nodup
    ∧ (symPoint n p ≠ p → ((p ∈ seedList n) ↔ symPoint n p ∉ seedList n))
    ∧ (symPoint n p = p → p ∈ seedList n) := by
  obtain ⟨hple, hplt⟩ := hp
  obtain ⟨px, py⟩ := p
  dsimp only at hple hplt
  have hmem := mem_seedList n (px, py)
  have hmem' := mem_seedList n (symPoint n (px, py))
  simp only [symPoint] at hmem' ⊢
  dsimp only at hmem hmem' ⊢
  have hsym_eq : ((n - 1 - py, n - 1 - px) : FeedPair) = (px, py) ↔ n - 1 - py = px := by
    rw [Prod.ext_iff]
    dsimp only
    omega
  refine ⟨nodup_seedList n, ?_, ?_⟩
  · intro hne
    have hne' : ¬(n - 1 - py = px) := fun h => hne (hsym_eq.2 h)
    rw [hmem, hmem']
    omega
  · intro heq
    have heq' : n - 1 - py = px := hsym_eq.1 heq
    rw [hmem]
    omega

/-- C8 witness: at `n = 4` and the in-domain point `(2, 3)`, whose
counterpart is `(0, 1)`: exactly the counterpart is seeded. -/
theorem c8_witness :
    (2 ≤ 4 ∧ inDomain 4 (2, 3) ∧ symPoint 4 (2, 3) ≠ (2, 3)) ∧
      (((2, 3) : FeedPair) ∈ seedList 4 ↔ symPoint 4 (2, 3) ∉ seedList 4) :=
  ⟨⟨by decide, by decide, by decide⟩,
   (c8_seeding_symmetry 4 (by decide) (2, 3) (by decide)).2.1 (by decide)⟩

/-! ## The neighbor-table debug assertions (C4) -/

theorem xRangeAsserts_always_fail (n r : Nat) (hn : 2 ≤ n) (hr : 1 ≤ r) :
    xRangeAssertsOK n r 0 = false := by
  unfold xRangeAssertsOK
  simp only [Bool.and_eq_false_iff, decide_eq_false_iff_not, not_lt, not_le]
  omega

/-- C4 (code bug): the claim — and the spec — demand that with all
preconditions satisfied (including a cache holding at least 3 entries) the
search runs to completion with no assertion failure.  In fact the
`debug_assert!`s guarding the neighbor-table precomputation
(brute_force.rs lines 120 and 122) are unsatisfiable: already at the first
domain point `(0,0)`, `next_x_range.end = min(max_radius+1, num_feeds)`
either equals `num_feeds` (refuting `next_x_range.end < num_feeds`) or
equals `max_radius+1` (refuting `next_x_range.end - curr_x ≤ max_radius`).
So every debug build aborts on every valid input; the final conjunct shows
the failure for all `num_feeds ≥ 2`, `max_radius ≥ 1`. -/
theorem c4_neighbor_asserts_fail :
    preconditionsOK 2 8192 1 100
    ∧ 3 ≤ (CacheModel.new 8192).l1_entries
    ∧ neighborAssertsOK 2 1 = false
    ∧ xRangeAssertsOK 2 1 0 = false
    ∧ ∀ n r : Nat, 2 ≤ n → 1 ≤ r → xRangeAssertsOK n r 0 = false := by
  refine ⟨by decide, by decide, by decide, by decide, xRangeAsserts_always_fail⟩

/-- C4 witness: the universally quantified conjunct applied at
`num_feeds = 3`, `max_radius = 2`. -/
theorem c4_witness :
    (2 ≤ 3 ∧ 1 ≤ 2) ∧ xRangeAssertsOK 3 2 0 = false :=
  ⟨⟨by decide, by decide⟩,
   c4_neighbor_asserts_fail.2.2.2.2 3 2 (by decide) (by decide)⟩


/-! ## List helpers for the frontier -/

theorem perm_getD_cons_eraseIdx {α : Type} (l : List α) (i : Nat) (d : α)
    (h : i < l.length) : l.Perm (l.getD i d :: l.eraseIdx i) := by
  induction l generalizing i with
  | nil => simp at h
  | cons a t ih =>
      cases i with
      | zero => simp [List.eraseIdx]
      | succ j =>
          have hj : j < t.length := by simpa using h
          have hperm := ih j hj
          have h1 : a :: t |>.Perm (a :: (t.getD j d :: t.eraseIdx j)) :=
            hperm.cons a
          have h2 : (a :: (t.getD j d :: t.eraseIdx j)).Perm
              (t.getD j d :: a :: t.eraseIdx j) := List.Perm.swap _ _ _
          exact h1.trans h2

theorem getD_mem {α : Type} (l : List α) (i : Nat) (d : α) (h : i < l.length) :
    l.getD i d ∈ l := by
  rw [List.getD_eq_getElem l d h]
  exact List.getElem_mem h

theorem mem_eraseIdx_of_mem {α : Type} (l : List α) (i : Nat) (a : α)
    (h : a ∈ l.eraseIdx i) : a ∈ l :=
  (List.eraseIdx_sublist l i).mem h

theorem prefix_extend {α : Type} (p q : List α) (h : p <+: q)
    (hlt : p.length < q.length) : ∃ s, (p ++ [s]) <+: q := by
  obtain ⟨t, rfl⟩ := h
  cases t with
  | nil => simp at hlt
  | cons s t' => exact ⟨s, t', by simp⟩

/-! ## Validity lemmas -/

theorem validPath_concat (n r : Nat) (p : Path) (s : FeedPair)
    (hp : ValidPath n r p) (hne : p ≠ []) (hdom : inDomain n s)
    (hstep : stepOK r (p.getLastD (0, 0)) s) (hnm : s ∉ p) :
    ValidPath n r (p ++ [s]) := by
  obtain ⟨hnodup, hdoms, hchain⟩ := hp
  refine ⟨?_, ?_, ?_⟩
  · rw [List.nodup_append]
    exact ⟨hnodup, by simp, fun a ha => by
      simp only [List.mem_singleton]
      intro hae
      exact hnm (hae ▸ ha)⟩
  · intro a ha
    rcases List.mem_append.1 ha with ha | ha
    · exact hdoms a ha
    · rw [List.mem_singleton.1 ha]
      exact hdom
  · rw [List.chain'_append]
    refine ⟨hchain, List.chain'_singleton s, ?_⟩
    intro x hx y hy
    have hy' : y = s := by
      have h2 : s = y := by simpa using hy
      exact h2.symm
    have hx2 : p.getLast? = some x := hx
    have hx' : p.getLastD (0, 0) = x := by
      rw [List.getLastD_eq_getLast?, hx2]
      rfl
    rw [hy', ← hx']
    exact hstep


/-! ## Neighborhood soundness and completeness for valid paths -/

theorem lastD_mem {α : Type} (p : List α) (d : α) (hne : p ≠ []) :
    p.getLastD d ∈ p := by
  rw [List.getLastD_eq_getLast?, List.getLast?_eq_getLast p hne]
  exact List.getLast_mem hne

theorem neighborhood_sound (n r x y : Nat) (q : FeedPair)
    (hy : y < n) (hq : q ∈ neighborhood n r (x, y)) :
    inDomain n q ∧ stepOK r (x, y) q := by
  obtain ⟨qx, qy⟩ := q
  rw [mem_neighborhood n r x y (qx, qy) hy] at hq
  obtain ⟨h1, h2, h3, h4⟩ := hq
  have h1' : x - r ≤ qx := h1
  have h2' : qx ≤ min (n - 1) (x + r) := h2
  have h3' : max (y - r) qx ≤ qy := h3
  have h4' : qy ≤ min (n - 1) (y + r) := h4
  have hdom : qx ≤ qy ∧ qy < n := ⟨by omega, by omega⟩
  have hstep : Nat.dist x qx ≤ r ∧ Nat.dist y qy ≤ r := by
    constructor <;> (simp only [Nat.dist]; omega)
  exact ⟨hdom, hstep⟩

theorem neighborhood_complete (n r x y : Nat) (q : FeedPair)
    (hxy : x ≤ y) (hy : y < n) (hdomq : inDomain n q) (hs : stepOK r (x, y) q) :
    q ∈ neighborhood n r (x, y) := by
  obtain ⟨qx, qy⟩ := q
  rw [mem_neighborhood n r x y (qx, qy) hy]
  have hd1 : qx ≤ qy := hdomq.1
  have hd2 : qy < n := hdomq.2
  have hs1 : Nat.dist x qx ≤ r := hs.1
  have hs2 : Nat.dist y qy ≤ r := hs.2
  simp only [Nat.dist] at hs1 hs2
  refine ⟨by omega, by omega, by omega, by omega⟩

theorem chain'_prefix_concat {α : Type} (R : α → α → Prop) (q p : List α)
    (s : α) (d : α) (hq : List.Chain' R q) (hpq : (p ++ [s]) <+: q)
    (hne : p ≠ []) : R (p.getLastD d) s := by
  have hchain : List.Chain' R (p ++ [s]) := hq.prefix hpq
  rw [List.chain'_append] at hchain
  refine hchain.2.2 (p.getLastD d) ?_ s (by simp)
  rw [List.getLastD_eq_getLast?, List.getLast?_eq_getLast p hne]
  simp [List.getLast?_eq_getLast p hne]

theorem prefix_next_step (n r : Nat) (q p : Path)
    (hq : ValidPath n r q) (hpq : p <+: q) (hne : p ≠ [])
    (hlt : p.length < q.length) :
    ∃ s, (p ++ [s]) <+: q ∧ s ∉ p ∧
      s ∈ neighborhood n r ((p.getLastD (0, 0)).1, (p.getLastD (0, 0)).2) := by
  obtain ⟨s, hps⟩ := prefix_extend p q hpq hlt
  have hsq : s ∈ q := hps.sublist.mem (by simp)
  have hnodup : (p ++ [s]).Nodup := hq.1.sublist hps.sublist
  have hsp : s ∉ p := by
    rw [List.nodup_append] at hnodup
    intro hmem
    exact hnodup.2.2 hmem (by simp)
  have hlast_mem : p.getLastD (0, 0) ∈ p := lastD_mem p (0, 0) hne
  have hlast_dom : inDomain n (p.getLastD (0, 0)) :=
    hq.2.1 _ (hpq.sublist.mem hlast_mem)
  have hs_dom : inDomain n s := hq.2.1 s hsq
  have hstep : stepOK r (p.getLastD (0, 0)) s :=
    chain'_prefix_concat (stepOK r) q p s (0, 0) hq.2.2 hps hne
  refine ⟨s, hps, hsp, ?_⟩
  exact neighborhood_complete n r _ _ s hlast_dom.1 hlast_dom.2 hs_dom hstep


/-! ## The expansion fold -/

theorem bestProp_le (m : CacheModel) (n r : Nat) (B : Cost) (bp : Path) (bc : Cost)
    (h : (bp = [] ∧ bc = B) ∨ GoodBest m n r B bp bc) : bc ≤ B := by
  rcases h with ⟨_, h2⟩ | h
  · exact le_of_eq h2
  · exact le_of_lt h.2.2

theorem goodNode_child (m : CacheModel) (n r : Nat) (nd : PartialPath) (s : FeedPair)
    (hnd : GoodNode m n r nd) (hs : s ∈ neighborhood n r nd.last_step)
    (hns : s ∉ nd.path) (hlen : nd.path.length + 1 < pathLength n) :
    GoodNode m n r
      (nd.commit_next_step s (nd.evaluate_next_step m s).1 (nd.evaluate_next_step m s).2) := by
  obtain ⟨hne, hhead, hvalid, _, hent, hcost⟩ := hnd
  have heval := evaluate_next_step_eq m nd s hne hent hcost
  have hlast_mem := lastD_mem nd.path (0, 0) hne
  have hlast_dom : inDomain n (nd.path.getLastD (0, 0)) := hvalid.2.1 _ hlast_mem
  have hs' : s ∈ neighborhood n r ((nd.path.getLastD (0, 0)).1, (nd.path.getLastD (0, 0)).2) := hs
  have hsnd := neighborhood_sound n r _ _ s hlast_dom.2 hs'
  refine ⟨by simp [PartialPath.commit_next_step], ?_, ?_, ?_, ?_, ?_⟩
  · obtain ⟨s0, hs0, hh⟩ := hhead
    refine ⟨s0, hs0, ?_⟩
    show (nd.path ++ [s]).head? = some s0
    rw [List.head?_append_of_ne_nil nd.path hne]
    exact hh
  · show ValidPath n r (nd.path ++ [s])
    exact validPath_concat n r nd.path s hvalid hne hsnd.1 hsnd.2 hns
  · show (nd.path ++ [s]).length < pathLength n
    simpa using hlen
  · show (nd.evaluate_next_step m s).2 = tailState m (nd.path ++ [s])
    rw [heval]
  · show (nd.evaluate_next_step m s).1 = tailCost m (nd.path ++ [s])
    rw [heval]

theorem candidateStep_cases (m : CacheModel) (T : Nat) (node : PartialPath)
    (acc : Path × Cost × List PartialPath) (s : FeedPair) :
    (s ∈ node.path ∧ candidateStep m T node acc s = acc)
    ∨ (s ∉ node.path ∧ acc.2.1 ≤ (node.evaluate_next_step m s).1 ∧
        candidateStep m T node acc s = acc)
    ∨ (s ∉ node.path ∧ (node.evaluate_next_step m s).1 < acc.2.1 ∧
        node.path.length + 1 = T ∧
        candidateStep m T node acc s
          = (node.path ++ [s], (node.evaluate_next_step m s).1, acc.2.2))
    ∨ (s ∉ node.path ∧ (node.evaluate_next_step m s).1 < acc.2.1 ∧
        node.path.length + 1 ≠ T ∧
        candidateStep m T node acc s
          = (acc.1, acc.2.1, acc.2.2 ++
              [node.commit_next_step s (node.evaluate_next_step m s).1
                (node.evaluate_next_step m s).2])) := by
  by_cases hc : node.contains s
  · left
    refine ⟨hc, ?_⟩
    rw [candidateStep, if_pos hc]
  · by_cases hb : acc.2.1 ≤ (node.evaluate_next_step m s).1
    · right; left
      refine ⟨hc, hb, ?_⟩
      rw [candidateStep, if_neg hc]
      dsimp only
      rw [if_pos hb]
    · have hlt : (node.evaluate_next_step m s).1 < acc.2.1 := lt_of_not_le hb
      by_cases hT : node.path.length + 1 = T
      · right; right; left
        refine ⟨hc, hlt, hT, ?_⟩
        rw [candidateStep, if_neg hc]
        dsimp only
        rw [if_neg hb]
        have hTlen : node.len + 1 = T := hT
        rw [if_pos hTlen, if_pos hlt]
        rfl
      · right; right; right
        refine ⟨hc, hlt, hT, ?_⟩
        rw [candidateStep, if_neg hc]
        dsimp only
        rw [if_neg hb]
        have hTlen : ¬(node.len + 1 = T) := hT
        rw [if_neg hTlen]


theorem foldInv_step (m : CacheModel) (n r : Nat) (B : Cost) (node : PartialPath)
    (rest : List PartialPath) (s : FeedPair) (rem : List FeedPair)
    (acc : Path × Cost × List PartialPath) (hnode : GoodNode m n r node)
    (hs : s ∈ neighborhood n r node.last_step)
    (hinv : FoldInv m n r B node rest (s :: rem) acc) :
    FoldInv m n r B node rest rem (candidateStep m (pathLength n) node acc s) ∧
    (candidateStep m (pathLength n) node acc s).2.1 ≤ acc.2.1 ∧
    (candidateStep m (pathLength n) node acc s).2.2.length ≤ acc.2.2.length + 1 := by
  obtain ⟨hbest, hnodes, hcomp⟩ := hinv
  obtain ⟨hne, hhead, hvalid, hlenT, hent, hcost⟩ := hnode
  have heval := evaluate_next_step_eq m node s hne hent hcost
  have hCe : (node.evaluate_next_step m s).1 = tailCost m (node.path ++ [s]) := by
    rw [heval]
  rcases candidateStep_cases m (pathLength n) node acc s with
    ⟨hc, heq⟩ | ⟨hc, hb, heq⟩ | ⟨hc, hlt, hT, heq⟩ | ⟨hc, hlt, hT, heq⟩
  · rw [heq]
    refine ⟨⟨hbest, hnodes, ?_⟩, le_refl _, by omega⟩
    intro q hq hqc
    rcases hcomp q hq hqc with h | h | ⟨s2, hs2, hps2⟩
    · exact Or.inl h
    · exact Or.inr (Or.inl h)
    · rcases List.mem_cons.1 hs2 with rfl | hs2
      · exfalso
        have hnodup : (node.path ++ [s2]).Nodup :=
          hq.1.1.1.sublist hps2.sublist
        rw [List.nodup_append] at hnodup
        exact hnodup.2.2 hc (by simp)
      · exact Or.inr (Or.inr ⟨s2, hs2, hps2⟩)
  · rw [heq]
    refine ⟨⟨hbest, hnodes, ?_⟩, le_refl _, by omega⟩
    intro q hq hqc
    rcases hcomp q hq hqc with h | h | ⟨s2, hs2, hps2⟩
    · exact Or.inl h
    · exact Or.inr (Or.inl h)
    · rcases List.mem_cons.1 hs2 with rfl | hs2
      · exfalso
        have hle : tailCost m (node.path ++ [s2]) ≤ tailCost m q :=
          tailCost_prefix_le m _ q hps2
        rw [← hCe] at hle
        exact absurd hqc (not_lt.2 (le_trans hb hle))
      · exact Or.inr (Or.inr ⟨s2, hs2, hps2⟩)
  · -- completion: record a strictly better complete path
    rw [heq]
    have hlast_mem := lastD_mem node.path (0, 0) hne
    have hlast_dom : inDomain n (node.path.getLastD (0, 0)) := hvalid.2.1 _ hlast_mem
    have hs' : s ∈ neighborhood n r
        ((node.path.getLastD (0, 0)).1, (node.path.getLastD (0, 0)).2) := hs
    have hsnd := neighborhood_sound n r _ _ s hlast_dom.2 hs'
    have hvalid' : ValidPath n r (node.path ++ [s]) :=
      validPath_concat n r node.path s hvalid hne hsnd.1 hsnd.2 hc
    have hseeded : SeededTraversal n r (node.path ++ [s]) := by
      refine ⟨⟨hvalid', by simpa using hT⟩, ?_⟩
      obtain ⟨s0, hs0, hh⟩ := hhead
      refine ⟨s0, hs0, ?_⟩
      rw [List.head?_append_of_ne_nil node.path hne]
      exact hh
    have hcB : (node.evaluate_next_step m s).1 < B :=
      lt_of_lt_of_le hlt (bestProp_le m n r B acc.1 acc.2.1 hbest)
    refine ⟨⟨Or.inr ⟨hseeded, hCe.symm, hcB⟩, hnodes, ?_⟩, le_of_lt hlt, Nat.le_succ _⟩
    intro q hq hqc
    have hqc' : tailCost m q < acc.2.1 := lt_trans hqc hlt
    rcases hcomp q hq hqc' with h | h | ⟨s2, hs2, hps2⟩
    · exact Or.inl h
    · exact Or.inr (Or.inl h)
    · rcases List.mem_cons.1 hs2 with rfl | hs2
      · exfalso
        have hle : tailCost m (node.path ++ [s2]) ≤ tailCost m q :=
          tailCost_prefix_le m _ q hps2
        rw [← hCe] at hle
        exact absurd hqc (not_lt.2 hle)
      · exact Or.inr (Or.inr ⟨s2, hs2, hps2⟩)
  · -- push the surviving incomplete extension
    rw [heq]
    have hchild : GoodNode m n r
        (node.commit_next_step s (node.evaluate_next_step m s).1
          (node.evaluate_next_step m s).2) := by
      refine goodNode_child m n r node s ⟨hne, hhead, hvalid, hlenT, hent, hcost⟩ hs hc ?_
      omega
    refine ⟨⟨hbest, ?_, ?_⟩, le_refl _, by simp⟩
    · intro nd hnd
      rcases List.mem_append.1 hnd with hnd | hnd
      · exact hnodes nd hnd
      · rw [List.mem_singleton.1 hnd]
        exact ⟨hchild, by simp [PartialPath.commit_next_step]⟩
    · intro q hq hqc
      rcases hcomp q hq hqc with h | h | ⟨s2, hs2, hps2⟩
      · exact Or.inl h
      · obtain ⟨nd, hnd, hp⟩ := h
        exact Or.inr (Or.inl ⟨nd, List.mem_append_left _ hnd, hp⟩)
      · rcases List.mem_cons.1 hs2 with rfl | hs2
        · refine Or.inr (Or.inl
            ⟨node.commit_next_step s2 (node.evaluate_next_step m s2).1
              (node.evaluate_next_step m s2).2,
             List.mem_append_right _ (by simp), ?_⟩)
          show (node.path ++ [s2]) <+: q
          exact hps2
        · exact Or.inr (Or.inr ⟨s2, hs2, hps2⟩)


theorem foldInv_fold (m : CacheModel) (n r : Nat) (B : Cost) (node : PartialPath)
    (rest : List PartialPath) (hnode : GoodNode m n r node) :
    ∀ (steps : List FeedPair) (acc : Path × Cost × List PartialPath),
      (∀ s ∈ steps, s ∈ neighborhood n r node.last_step) →
      FoldInv m n r B node rest steps acc →
      FoldInv m n r B node rest []
        (steps.foldl (candidateStep m (pathLength n) node) acc) ∧
      (steps.foldl (candidateStep m (pathLength n) node) acc).2.1 ≤ acc.2.1 ∧
      (steps.foldl (candidateStep m (pathLength n) node) acc).2.2.length
        ≤ acc.2.2.length + steps.length := by
  intro steps
  induction steps with
  | nil =>
      intro acc _ hinv
      exact ⟨hinv, le_refl _, by simp⟩
  | cons s rem ih =>
      intro acc hsteps hinv
      have hstep := foldInv_step m n r B node rest s rem acc hnode
        (hsteps s (by simp)) hinv
      have hrec := ih (candidateStep m (pathLength n) node acc s)
        (fun s2 hs2 => hsteps s2 (by simp [hs2])) hstep.1
      rw [List.foldl_cons]
      refine ⟨hrec.1, le_trans hrec.2.1 hstep.2.1, ?_⟩
      have h1 := hrec.2.2
      have h2 := hstep.2.2
      simp only [List.length_cons]
      omega

/-! ## Termination measure -/

theorem frontierMeasure_append (n T : Nat) (l1 l2 : List PartialPath) :
    frontierMeasure n T (l1 ++ l2) = frontierMeasure n T l1 + frontierMeasure n T l2 := by
  simp [frontierMeasure]

theorem frontierMeasure_perm (n T : Nat) (l1 l2 : List PartialPath)
    (h : l1.Perm l2) : frontierMeasure n T l1 = frontierMeasure n T l2 :=
  (h.map (nodeWeight n T)).sum_eq

theorem nodeWeight_pos (n T : Nat) (p : PartialPath) : 0 < nodeWeight n T p :=
  Nat.pos_pow_of_pos _ (by omega)

theorem neighborhood_length_le (n r x y : Nat) :
    (neighborhood n r (x, y)).length ≤ n * n := by
  rw [neighborhood_eq, List.length_flatMap]
  have hlen : ∀ z ∈ List.map
      (List.length ∘ fun nx =>
        (List.range' (max (y - r) nx) (min (y + r + 1) n - max (y - r) nx)).map
          fun ny => (nx, ny))
      (List.range' (x - r) (min (x + r + 1) n - (x - r))), z ≤ n := by
    intro z hz
    obtain ⟨nx, _, rfl⟩ := List.mem_map.1 hz
    simp only [Function.comp, List.length_map, List.length_range']
    omega
  have := List.sum_le_card_nsmul _ n hlen
  rw [smul_eq_mul] at this
  refine le_trans this ?_
  have hl : (List.map
      (List.length ∘ fun nx =>
        (List.range' (max (y - r) nx) (min (y + r + 1) n - max (y - r) nx)).map
          fun ny => (nx, ny))
      (List.range' (x - r) (min (x + r + 1) n - (x - r)))).length ≤ n := by
    simp only [List.length_map, List.length_range']
    omega
  exact Nat.mul_le_mul_right n hl

theorem frontierMeasure_le_of_len (n T L : Nat) (l : List PartialPath)
    (hlen : ∀ nd ∈ l, nd.path.length = L) :
    frontierMeasure n T l ≤ l.length * (n * n + 1) ^ (T - L) := by
  unfold frontierMeasure
  have h := List.sum_le_card_nsmul (l.map (nodeWeight n T)) ((n * n + 1) ^ (T - L)) ?_
  · rw [smul_eq_mul, List.length_map] at h
    exact h
  · intro z hz
    obtain ⟨nd, hnd, rfl⟩ := List.mem_map.1 hz
    unfold nodeWeight PartialPath.len
    rw [hlen nd hnd]

theorem children_measure_lt (n T L c : Nat) (hL : L < T) (hc : c ≤ n * n) :
    c * (n * n + 1) ^ (T - (L + 1)) < (n * n + 1) ^ (T - L) := by
  have hTL : T - L = (T - (L + 1)) + 1 := by omega
  rw [hTL, pow_succ]
  have hpos : 0 < (n * n + 1) ^ (T - (L + 1)) := Nat.pos_pow_of_pos _ (by omega)
  calc c * (n * n + 1) ^ (T - (L + 1))
      ≤ n * n * (n * n + 1) ^ (T - (L + 1)) := Nat.mul_le_mul_right _ hc
    _ < (n * n + 1) ^ (T - (L + 1)) * (n * n + 1) := by
        rw [Nat.mul_comm (n * n)]
        exact Nat.mul_lt_mul_of_le_of_lt (le_refl _) (by omega) hpos


/-! ## The master loop invariant theorem -/

theorem searchLoop_spec (m : CacheModel) (n r : Nat) (B : Cost) (oracle : Nat → Nat) :
    ∀ (fuel : Nat) (st : SearchState),
      SearchInv m n r B st →
      frontierMeasure n (pathLength n) st.frontier < fuel →
      ∃ res, searchLoop m n r (pathLength n) oracle fuel st = some res ∧
        ResultSpec m n r B res := by
  intro fuel
  induction fuel with
  | zero =>
      intro st _ hm
      exact absurd hm (by omega)
  | succ fuel ih =>
      rintro ⟨F, bp, bc, tick⟩ hinv hm
      obtain ⟨hnodes, hbest, hcomp⟩ := hinv
      dsimp only at hnodes hbest hcomp hm
      rcases hF : F with _ | ⟨node0, rest0⟩
      · -- empty frontier: the loop reports the recorded best
        subst hF
        refine ⟨if bp.isEmpty then none else some (bc, bp), by simp [searchLoop], ?_⟩
        rcases hbest with ⟨hbp, hbc⟩ | hgood
        · subst hbp
          simp only [List.isEmpty_nil, if_pos]
          show ∀ q, SeededTraversal n r q → B ≤ tailCost m q
          intro q hq
          by_contra hlt
          push_neg at hlt
          obtain ⟨nd, hnd, _⟩ := hcomp q hq (by rw [hbc]; exact hlt)
          cases hnd
        · have hbpne : bp ≠ [] := by
            intro h0
            obtain ⟨s0, _, hh⟩ := hgood.1.2
            rw [h0] at hh
            cases hh
          have hemp : bp.isEmpty = false := by
            cases bp with
            | nil => exact absurd rfl hbpne
            | cons a l => rfl
          rw [hemp]
          simp only [Bool.false_eq_true, if_false]
          show SeededTraversal n r bp ∧ tailCost m bp = bc ∧ bc < B ∧
            ∀ q, SeededTraversal n r q → bc ≤ tailCost m q
          refine ⟨hgood.1, hgood.2.1, hgood.2.2, ?_⟩
          intro q hq
          by_contra hlt
          push_neg at hlt
          obtain ⟨nd, hnd, _⟩ := hcomp q hq hlt
          cases hnd
      · -- nonempty frontier: pop, prune or expand
        subst hF
        set i := oracle tick % (node0 :: rest0).length with hidef
        set popped := (node0 :: rest0).getD i (PartialPath.new m (0, 0)) with hpop
        set rest := (node0 :: rest0).eraseIdx i with hrest
        have hilt : i < (node0 :: rest0).length := Nat.mod_lt _ (by simp)
        have hmemp : popped ∈ node0 :: rest0 := getD_mem _ _ _ hilt
        have hperm : (node0 :: rest0).Perm (popped :: rest) :=
          perm_getD_cons_eraseIdx (node0 :: rest0) i (PartialPath.new m (0, 0)) hilt
        have hgoodp : GoodNode m n r popped := hnodes _ hmemp
        have hrest_nodes : ∀ nd ∈ rest, GoodNode m n r nd := fun nd hnd =>
          hnodes nd (mem_eraseIdx_of_mem _ _ _ hnd)
        have hsplit : frontierMeasure n (pathLength n) (node0 :: rest0)
            = nodeWeight n (pathLength n) popped
              + frontierMeasure n (pathLength n) rest := by
          rw [frontierMeasure_perm n (pathLength n) _ _ hperm]
          simp [frontierMeasure]
        have hwpos := nodeWeight_pos n (pathLength n) popped
        by_cases hprune : bc ≤ popped.cost_so_far
        · -- prune the popped node
          have hinv' : SearchInv m n r B ⟨rest, bp, bc, tick + 1⟩ := by
            refine ⟨hrest_nodes, hbest, ?_⟩
            intro q hq hqc
            obtain ⟨nd, hnd, hp⟩ := hcomp q hq hqc
            rcases List.mem_cons.1 (hperm.mem_iff.1 hnd) with rfl | hnd'
            · exfalso
              have hle : tailCost m popped.path ≤ tailCost m q :=
                tailCost_prefix_le m _ q hp
              rw [← hgoodp.2.2.2.2.2] at hle
              exact absurd hqc (not_lt.2 (le_trans hprune hle))
            · exact ⟨nd, hnd', hp⟩
          have hm' : frontierMeasure n (pathLength n) rest < fuel := by omega
          obtain ⟨res, hres, hspec⟩ := ih ⟨rest, bp, bc, tick + 1⟩ hinv' hm'
          refine ⟨res, ?_, hspec⟩
          show searchLoop m n r (pathLength n) oracle (fuel + 1)
              ⟨node0 :: rest0, bp, bc, tick⟩ = some res
          rw [searchLoop]
          dsimp only
          rw [if_pos hprune]
          exact hres
        · -- expand the popped node through its neighborhood
          set steps := neighborhood n r popped.last_step with hsteps
          have hinv0 : FoldInv m n r B popped rest steps (bp, bc, []) := by
            refine ⟨hbest, by simp, ?_⟩
            intro q hq hqc
            obtain ⟨nd, hnd, hp⟩ := hcomp q hq hqc
            rcases List.mem_cons.1 (hperm.mem_iff.1 hnd) with rfl | hnd'
            · right; right
              have hvq : ValidPath n r q := hq.1.1
              have hlenq : popped.path.length < q.length := by
                rw [hq.1.2]
                exact hgoodp.2.2.2.1
              obtain ⟨s, hps, _, hsnb⟩ :=
                prefix_next_step n r q popped.path hvq hp hgoodp.1 hlenq
              exact ⟨s, hsnb, hps⟩
            · exact Or.inl ⟨nd, hnd', hp⟩
          obtain ⟨hfinal, hcost_le, hlen_le⟩ :=
            foldInv_fold m n r B popped rest hgoodp steps (bp, bc, [])
              (fun s hs => hs) hinv0
          obtain ⟨hfbest, hfnodes, hfcomp⟩ := hfinal
          have hinv' : SearchInv m n r B
              ⟨rest ++ (steps.foldl (candidateStep m (pathLength n) popped)
                  (bp, bc, [])).2.2,
               (steps.foldl (candidateStep m (pathLength n) popped) (bp, bc, [])).1,
               (steps.foldl (candidateStep m (pathLength n) popped) (bp, bc, [])).2.1,
               tick + 1⟩ := by
            refine ⟨?_, hfbest, ?_⟩
            · intro nd hnd
              rcases List.mem_append.1 hnd with hnd | hnd
              · exact hrest_nodes nd hnd
              · exact (hfnodes nd hnd).1
            · intro q hq hqc
              rcases hfcomp q hq hqc with h | h | h
              · obtain ⟨nd, hnd, hp⟩ := h
                exact ⟨nd, List.mem_append_left _ hnd, hp⟩
              · obtain ⟨nd, hnd, hp⟩ := h
                exact ⟨nd, List.mem_append_right _ hnd, hp⟩
              · obtain ⟨s, hs, _⟩ := h
                cases hs
          have hsteps_le : steps.length ≤ n * n := by
            have := neighborhood_length_le n r popped.last_step.1 popped.last_step.2
            exact this
          have hpush_meas : frontierMeasure n (pathLength n)
              (steps.foldl (candidateStep m (pathLength n) popped) (bp, bc, [])).2.2
              < nodeWeight n (pathLength n) popped := by
            have hlen2 : ∀ nd ∈ (steps.foldl (candidateStep m (pathLength n) popped)
                (bp, bc, [])).2.2, nd.path.length = popped.path.length + 1 :=
              fun nd hnd => (hfnodes nd hnd).2
            have h1 := frontierMeasure_le_of_len n (pathLength n)
              (popped.path.length + 1) _ hlen2
            have h2 : (steps.foldl (candidateStep m (pathLength n) popped)
                (bp, bc, [])).2.2.length ≤ n * n := by
              have := hlen_le
              simp only [List.length_nil] at this
              omega
            have h3 := children_measure_lt n (pathLength n) popped.path.length
              ((steps.foldl (candidateStep m (pathLength n) popped)
                (bp, bc, [])).2.2.length) hgoodp.2.2.2.1 h2
            calc frontierMeasure n (pathLength n) _
                ≤ _ := h1
              _ < (n * n + 1) ^ (pathLength n - popped.path.length) := h3
              _ = nodeWeight n (pathLength n) popped := rfl
          have hm' : frontierMeasure n (pathLength n)
              (rest ++ (steps.foldl (candidateStep m (pathLength n) popped)
                (bp, bc, [])).2.2) < fuel := by
            rw [frontierMeasure_append]
            omega
          obtain ⟨res, hres, hspec⟩ := ih _ hinv' hm'
          refine ⟨res, ?_, hspec⟩
          show searchLoop m n r (pathLength n) oracle (fuel + 1)
              ⟨node0 :: rest0, bp, bc, tick⟩ = some res
          rw [searchLoop]
          dsimp only
          rw [if_neg hprune]
          exact hres


/-- The initial state of the search satisfies the loop invariant. -/
theorem searchInv_init (m : CacheModel) (n r : Nat) (B : Cost) (hn : 2 ≤ n) :
    SearchInv m n r B (initState m n B) := by
  refine ⟨?_, Or.inl ⟨rfl, rfl⟩, ?_⟩
  · intro nd hnd
    obtain ⟨s, hs, rfl⟩ := List.mem_map.1 hnd
    refine ⟨by simp [PartialPath.new], ⟨s, hs, rfl⟩, ?_, ?_, rfl, rfl⟩
    · refine ⟨List.nodup_singleton s, ?_, List.chain'_singleton s⟩
      intro p hp
      have hp2 : p ∈ ([s] : Path) := hp
      rw [List.mem_singleton] at hp2
      exact hp2 ▸ seed_inDomain n s hs
    · show ([s] : Path).length < pathLength n
      have h3 := pathLength_ge_three n hn
      simp only [List.length_singleton]
      omega
  · intro q hq hqc
    obtain ⟨s, hs, hh⟩ := hq.2
    refine ⟨PartialPath.new m s, List.mem_map_of_mem _ hs, ?_⟩
    show [s] <+: q
    cases q with
    | nil => cases hh
    | cons a l =>
        have ha : a = s := by
          rw [List.head?_cons] at hh
          exact Option.some.inj hh
        exact ⟨l, by rw [ha]; rfl⟩

/-- `search_best_path` meets `ResultSpec` for every pop oracle. -/
theorem search_best_path_spec (num_feeds entry_size max_radius : Nat) (B : Cost)
    (oracle : Nat → Nat) (hn : 2 ≤ num_feeds) :
    ResultSpec (CacheModel.new entry_size) num_feeds max_radius B
      (search_best_path num_feeds entry_size max_radius B oracle) := by
  obtain ⟨res, hres, hspec⟩ :=
    searchLoop_spec (CacheModel.new entry_size) num_feeds max_radius B oracle
      (searchFuel (CacheModel.new entry_size) num_feeds B (pathLength num_feeds))
      (initState (CacheModel.new entry_size) num_feeds B)
      (searchInv_init (CacheModel.new entry_size) num_feeds max_radius B hn)
      (by rw [searchFuel]; exact Nat.lt_succ_self _)
  show ResultSpec (CacheModel.new entry_size) num_feeds max_radius B
    ((searchLoop (CacheModel.new entry_size) num_feeds max_radius
        (pathLength num_feeds) oracle
        (searchFuel (CacheModel.new entry_size) num_feeds B (pathLength num_feeds))
        (initState (CacheModel.new entry_size) num_feeds B)).getD none)
  rw [hres]
  exact hspec


/-! ## The remaining claims: C1, C2, C9

The concrete witnesses below evaluate the search by kernel reduction; the
arithmetic of `ℚ` (`Rat.add`, `Rat.mul`) is marked irreducible upstream,
which only hides it from the elaborator, so it is restored here. -/

attribute [local semireducible] Rat.add Rat.mul

/-- A complete traversal is a permutation of the enumerated domain. -/
theorem traversal_perm_domainList (n r : Nat) (q : Path)
    (hq : CompleteTraversal n r q) : List.Perm q (domainList n) := by
  obtain ⟨⟨hnd, hmem, _⟩, hlen⟩ := hq
  have hsub : List.Subperm q (domainList n) :=
    hnd.subperm fun s hs => (mem_domainList n s).2 (hmem s hs)
  refine hsub.perm_of_length_le ?_
  rw [domainList_length, hlen]

/-- At `num_feeds = 2`, `entry_size = 65536`, every ordering of the three
domain pairs has full simulated cost at least 3 (it is exactly 4). -/
theorem perm_domainList_two_cost (q : Path)
    (hperm : List.Perm q (domainList 2)) :
    ¬ pathCost (CacheModel.new 65536) q < 3 := by
  have hdl : domainList 2 = [(0, 0), (0, 1), (1, 1)] := rfl
  rw [hdl] at hperm
  have hlen : q.length = 3 := hperm.length_eq
  have hnd : q.Nodup := hperm.nodup_iff.2 (by decide)
  obtain ⟨a, b, c, rfl⟩ : ∃ a b c, q = [a, b, c] := by
    cases q with
    | nil =>
        simp only [List.length_nil] at hlen
        omega
    | cons a t =>
        cases t with
        | nil =>
            simp only [List.length_cons, List.length_nil] at hlen
            omega
        | cons b t2 =>
            cases t2 with
            | nil =>
                simp only [List.length_cons, List.length_nil] at hlen
                omega
            | cons c t3 =>
                cases t3 with
                | nil => exact ⟨a, b, c, rfl⟩
                | cons d t4 =>
                    simp only [List.length_cons] at hlen
                    omega
  have ha := hperm.subset (by simp : a ∈ [a, b, c])
  have hb := hperm.subset (by simp : b ∈ [a, b, c])
  have hc := hperm.subset (by simp : c ∈ [a, b, c])
  simp only [List.mem_cons, List.not_mem_nil, or_false] at ha hb hc
  revert hnd
  rcases ha with rfl | rfl | rfl <;> rcases hb with rfl | rfl | rfl <;>
    rcases hc with rfl | rfl | rfl <;> decide

/-- C1 (code bug): at `num_feeds = 2`, `entry_size = 65536`,
`max_radius = 1`, bound `3` — a valid input — every complete traversal has
full simulated cost 4, so no complete traversal is strictly cheaper than
the bound and the claimed behaviour is to return `none`; yet the search
returns a result, for every pop oracle hence every random seed.  The cause
is the defect shown in `c5_new_does_not_record_start_pair`: the two
`simulate_access` calls of `PartialPath::new` sit inside `debug_assert_eq!`
and release builds compile them out, so the cost the search accumulates
omits the two accesses of the start pair and the best node's accumulated
cost is 2 < 3 (debug builds never get this far: they abort in the
neighbor-table precomputation, see `c4_neighbor_asserts_fail`).  What the
search does guarantee about the cost it accumulates is
`search_best_path_spec` above. -/
theorem c1_counterexample :
    ¬((search_best_path 2 65536 1 3 (fun _ => 0) = none) ↔
      ¬∃ q, CompleteTraversal 2 1 q ∧ pathCost (CacheModel.new 65536) q < 3) := by
  intro h
  have hrhs : ¬∃ q, CompleteTraversal 2 1 q ∧ pathCost (CacheModel.new 65536) q < 3 := by
    rintro ⟨q, hq, hcost⟩
    exact perm_domainList_two_cost q (traversal_perm_domainList 2 1 q hq) hcost
  have hnone := h.2 hrhs
  have hsome : search_best_path 2 65536 1 3 (fun _ => 0)
      = some (2, [(0, 0), (0, 1), (1, 1)]) := by decide
  rw [hsome] at hnone
  cases hnone

/-- C2: every path returned by `search_best_path` has length exactly
`num_feeds·(num_feeds+1)/2`, has no repeated pair, is a permutation of the
enumerated domain `{(x, y) : x ≤ y < num_feeds}` (so its multiset of pairs
is exactly the domain), every pair of it is in-domain, and every
consecutive transition moves by at most `max_radius` in each
coordinate. -/
theorem c2_returned_path_invariants (num_feeds entry_size max_radius : Nat)
    (B : Cost) (oracle : Nat → Nat) (c : Cost) (p : Path) (hn : 2 ≤ num_feeds)
    (hret : search_best_path num_feeds entry_size max_radius B oracle = some (c, p)) :
    p.length = num_feeds * (num_feeds + 1) / 2 ∧
    p.Nodup ∧
    List.Perm p (domainList num_feeds) ∧
    (∀ s ∈ p, inDomain num_feeds s) ∧
    p.Chain' (stepOK max_radius) := by
  have hspec := search_best_path_spec num_feeds entry_size max_radius B oracle hn
  rw [hret] at hspec
  have hspec2 : SeededTraversal num_feeds max_radius p ∧
      tailCost (CacheModel.new entry_size) p = c ∧ c < B ∧
      ∀ q, SeededTraversal num_feeds max_radius q →
        c ≤ tailCost (CacheModel.new entry_size) q := hspec
  obtain ⟨⟨⟨⟨hnd, hmem, hch⟩, hlen⟩, _⟩, _⟩ := hspec2
  exact ⟨hlen, hnd,
    traversal_perm_domainList num_feeds max_radius p ⟨⟨hnd, hmem, hch⟩, hlen⟩,
    hmem, hch⟩

/-- C2 witness: the path returned at `num_feeds = 2`, `entry_size = 65536`,
`max_radius = 1`, bound `3` satisfies all the invariants. -/
theorem c2_witness :
    ((2 ≤ 2) ∧
      search_best_path 2 65536 1 3 (fun _ => 0)
        = some (2, [(0, 0), (0, 1), (1, 1)])) ∧
    (([(0, 0), (0, 1), (1, 1)] : Path).length = 2 * (2 + 1) / 2 ∧
     ([(0, 0), (0, 1), (1, 1)] : Path).Nodup ∧
     List.Perm [(0, 0), (0, 1), (1, 1)] (domainList 2) ∧
     (∀ s ∈ ([(0, 0), (0, 1), (1, 1)] : Path), inDomain 2 s) ∧
     ([(0, 0), (0, 1), (1, 1)] : Path).Chain' (stepOK 1)) :=
  ⟨⟨by omega, by decide⟩,
   c2_returned_path_invariants 2 65536 1 3 (fun _ => 0) 2 [(0, 0), (0, 1), (1, 1)]
     (by omega) (by decide)⟩

/-- C9: two runs of the search on the same inputs that differ only in the
pop oracle (the randomized tiebreak of the frontier) return the same
optimal cost, and one returns a result iff the other does; only the
particular path may differ. -/
theorem c9_random_seed_deterministic (num_feeds entry_size max_radius : Nat)
    (B : Cost) (o1 o2 : Nat → Nat) (hn : 2 ≤ num_feeds) :
    Option.map Prod.fst (search_best_path num_feeds entry_size max_radius B o1)
      = Option.map Prod.fst (search_best_path num_feeds entry_size max_radius B o2) := by
  have h1 := search_best_path_spec num_feeds entry_size max_radius B o1 hn
  have h2 := search_best_path_spec num_feeds entry_size max_radius B o2 hn
  cases hr1 : search_best_path num_feeds entry_size max_radius B o1 with
  | none =>
      cases hr2 : search_best_path num_feeds entry_size max_radius B o2 with
      | none => rfl
      | some cp =>
          rw [hr1] at h1
          rw [hr2] at h2
          have h1n : ∀ q, SeededTraversal num_feeds max_radius q →
              B ≤ tailCost (CacheModel.new entry_size) q := h1
          have h2s : SeededTraversal num_feeds max_radius cp.2 ∧
              tailCost (CacheModel.new entry_size) cp.2 = cp.1 ∧ cp.1 < B ∧
              ∀ q, SeededTraversal num_feeds max_radius q →
                cp.1 ≤ tailCost (CacheModel.new entry_size) q := h2
          exact absurd h2s.2.2.1 (not_lt.2 (h2s.2.1 ▸ h1n cp.2 h2s.1))
  | some cp1 =>
      cases hr2 : search_best_path num_feeds entry_size max_radius B o2 with
      | none =>
          rw [hr1] at h1
          rw [hr2] at h2
          have h2n : ∀ q, SeededTraversal num_feeds max_radius q →
              B ≤ tailCost (CacheModel.new entry_size) q := h2
          have h1s : SeededTraversal num_feeds max_radius cp1.2 ∧
              tailCost (CacheModel.new entry_size) cp1.2 = cp1.1 ∧ cp1.1 < B ∧
              ∀ q, SeededTraversal num_feeds max_radius q →
                cp1.1 ≤ tailCost (CacheModel.new entry_size) q := h1
          exact absurd h1s.2.2.1 (not_lt.2 (h1s.2.1 ▸ h2n cp1.2 h1s.1))
      | some cp2 =>
          rw [hr1] at h1
          rw [hr2] at h2
          have h1s : SeededTraversal num_feeds max_radius cp1.2 ∧
              tailCost (CacheModel.new entry_size) cp1.2 = cp1.1 ∧ cp1.1 < B ∧
              ∀ q, SeededTraversal num_feeds max_radius q →
                cp1.1 ≤ tailCost (CacheModel.new entry_size) q := h1
          have h2s : SeededTraversal num_feeds max_radius cp2.2 ∧
              tailCost (CacheModel.new entry_size) cp2.2 = cp2.1 ∧ cp2.1 < B ∧
              ∀ q, SeededTraversal num_feeds max_radius q →
                cp2.1 ≤ tailCost (CacheModel.new entry_size) q := h2
          have hle1 : cp1.1 ≤ cp2.1 := h2s.2.1 ▸ h1s.2.2.2 cp2.2 h2s.1
          have hle2 : cp2.1 ≤ cp1.1 := h1s.2.1 ▸ h2s.2.2.2 cp1.2 h1s.1
          show some cp1.1 = some cp2.1
          exact congrArg some (le_antisymm hle1 hle2)

/-- C9 witness: the constant-zero oracle and the successor oracle return
the same cost at `num_feeds = 2`, `entry_size = 65536`, `max_radius = 1`,
bound `3`. -/
theorem c9_witness :
    (2 ≤ 2) ∧
    Option.map Prod.fst (search_best_path 2 65536 1 3 (fun _ => 0))
      = Option.map Prod.fst (search_best_path 2 65536 1 3 (fun k => k + 1)) :=
  ⟨by omega,
   c9_random_seed_deterministic 2 65536 1 3 (fun _ => 0) (fun k => k + 1) (by omega)⟩

end Crashe
